import Mathlib

/-!
Verification of the recipemd-go structural extraction pipeline.

The definitions below are a shallow embedding of the Go sources:
  * `pkg/extension/recipemd.go` (the `extension` package: `recipeParser.Transform`,
    `splitTags`, `parseYields`, `parseAmount`, `parseIngredient`, `addIngredientGroup`),
  * the `parser` package (`recipeTransformer.Transform`, `processMetadata`,
    `processIngredients`, `parseIngredientContent`),
  * the `renderer` package (`JSONRenderer`, `MarkdownRenderer`).

Markdown documents are modelled at the block-tree level: the generic CommonMark
parser (goldmark) is an external collaborator that supplies a tree of headings,
paragraphs, lists, emphasis runs, links, plain text and thematic breaks; the
pipeline under verification only consumes that tree.  A list item is modelled by
the inline content of its leading text block (goldmark always wraps list-item
text in a `TextBlock`/`Paragraph`).
-/

namespace RecipeMD

/-- Inline nodes of the pre-parsed markdown tree: plain text, emphasis runs
(`level` 1 = italic, 2 = bold), and links with a destination. -/
inductive Inline where
  | text (s : String)
  | emph (level : Nat) (children : List Inline)
  | link (dest : String) (children : List Inline)

/-- Block nodes of the pre-parsed markdown tree.  `list` carries its items,
each item being the inline content of the item's text block.  `other` stands
for any further block kind (code block, raw HTML, ...), of which the pipeline
only ever extracts the flattened text of inline children. -/
inductive Block where
  | heading (level : Nat) (children : List Inline)
  | para (children : List Inline)
  | list (items : List (List Inline))
  | thematicBreak
  | other (children : List Inline)

/-- Go `unicode.IsSpace`: Latin-1 fast path (`\t \n \v \f \r ' '` U+0085 U+00A0)
plus the `White_Space` table for larger code points. -/
def goIsSpace (c : Char) : Bool :=
  c = ' ' || c = '\t' || c = '\n' || c.toNat = 0x0B || c.toNat = 0x0C || c = '\r' ||
  c.toNat = 0x85 || c.toNat = 0xA0 ||
  c.toNat = 0x1680 || (0x2000 ≤ c.toNat && c.toNat ≤ 0x200A) ||
  c.toNat = 0x2028 || c.toNat = 0x2029 || c.toNat = 0x202F || c.toNat = 0x205F ||
  c.toNat = 0x3000

/-- Go `unicode.Nd` range table (category "decimal digit", Unicode 15.0),
transcribed from the Go standard library's `unicode` tables. -/
def ndRanges : List (Nat × Nat) :=
  [(0x0030, 0x0039), (0x0660, 0x0669), (0x06F0, 0x06F9), (0x07C0, 0x07C9),
   (0x0966, 0x096F), (0x09E6, 0x09EF), (0x0A66, 0x0A6F), (0x0AE6, 0x0AEF),
   (0x0B66, 0x0B6F), (0x0BE6, 0x0BEF), (0x0C66, 0x0C6F), (0x0CE6, 0x0CEF),
   (0x0D66, 0x0D6F), (0x0DE6, 0x0DEF), (0x0E50, 0x0E59), (0x0ED0, 0x0ED9),
   (0x0F20, 0x0F29), (0x1040, 0x1049), (0x1090, 0x1099), (0x17E0, 0x17E9),
   (0x1810, 0x1819), (0x1946, 0x194F), (0x19D0, 0x19D9), (0x1A80, 0x1A89),
   (0x1A90, 0x1A99), (0x1B50, 0x1B59), (0x1BB0, 0x1BB9), (0x1C40, 0x1C49),
   (0x1C50, 0x1C59), (0xA620, 0xA629), (0xA8D0, 0xA8D9), (0xA900, 0xA909),
   (0xA9D0, 0xA9D9), (0xA9F0, 0xA9F9), (0xAA50, 0xAA59), (0xABF0, 0xABF9),
   (0xFF10, 0xFF19),
   (0x104A0, 0x104A9), (0x10D30, 0x10D39), (0x11066, 0x1106F), (0x110F0, 0x110F9),
   (0x11136, 0x1113F), (0x111D0, 0x111D9), (0x112F0, 0x112F9), (0x11450, 0x11459),
   (0x114D0, 0x114D9), (0x11650, 0x11659), (0x116C0, 0x116C9), (0x11730, 0x11739),
   (0x118E0, 0x118E9), (0x11950, 0x11959), (0x11C50, 0x11C59), (0x11D50, 0x11D59),
   (0x11DA0, 0x11DA9), (0x11F50, 0x11F59), (0x16A60, 0x16A69), (0x16AC0, 0x16AC9),
   (0x16B50, 0x16B59), (0x1D7CE, 0x1D7FF), (0x1E140, 0x1E149), (0x1E2F0, 0x1E2F9),
   (0x1E4F0, 0x1E4F9), (0x1E950, 0x1E959), (0x1FBF0, 0x1FBF9)]

/-- Go `unicode.IsDigit`: ASCII fast path for Latin-1 code points, otherwise a
lookup in the category-Nd table. -/
def unicodeIsDigit (c : Char) : Bool :=
  if c.toNat ≤ 0xFF then decide ('0' ≤ c ∧ c ≤ '9')
  else ndRanges.any (fun p => decide (p.1 ≤ c.toNat ∧ c.toNat ≤ p.2))

/-- Trim `goIsSpace` characters from both ends of a character list
(Go `strings.TrimSpace` on the rune level). -/
def trimList (l : List Char) : List Char :=
  (((l.dropWhile goIsSpace).reverse).dropWhile goIsSpace).reverse

/-- Go `strings.TrimSpace`. -/
def goTrimSpace (s : String) : String := ⟨trimList s.data⟩

mutual

/-- Flattened text of one inline node: text leaves collected in order.  This
is the common behaviour of the `extractText` helpers in the `parser`,
`extension` and `renderer` packages (each recurses through emphasis and link
children and collects text leaves; link destinations are not collected). -/
def extractTextInline : Inline → String
  | .text s => s
  | .emph _ cs => extractTextList cs
  | .link _ cs => extractTextList cs

/-- Flattened text of a sequence of inline nodes. -/
def extractTextList : List Inline → String
  | [] => ""
  | i :: rest => extractTextInline i ++ extractTextList rest

end

/-- Flattened text of a block node (`extractText` applied to a block). -/
def extractTextB : Block → String
  | .heading _ cs => extractTextList cs
  | .para cs => extractTextList cs
  | .list items => (items.map extractTextList).foldl (· ++ ·) ""
  | .thematicBreak => ""
  | .other cs => extractTextList cs

/-! ## The extension package's amount parser

`parseAmount` (extension package) matches the regular expression
`^([\d.,/\s]+)` against the trimmed input.  In Go's RE2, `\d` is ASCII
`[0-9]` and `\s` is ASCII `[\t\n\f\r ]`.  If the match is non-empty, the
trimmed match becomes the factor and the trimmed remainder (if non-empty)
becomes the unit; otherwise the whole trimmed text becomes the factor and
the unit is absent. -/

/-- Characters matched by the char class `[\d.,/\s]` of the amount regexp. -/
def isAmountChar (c : Char) : Bool :=
  ('0' ≤ c && c ≤ '9') || c = '.' || c = ',' || c = '/' ||
  c = '\t' || c = '\n' || c.toNat = 0x0C || c = '\r' || c = ' '

/-- Extension `parseAmount`: returns `(factor, unit)`.  The factor is a
verbatim string; no numeric evaluation is performed anywhere. -/
def parseAmount (text : String) : String × Option String :=
  let t := goTrimSpace text
  let num := t.data.takeWhile isAmountChar
  if num.isEmpty then (t, none)
  else
    let factor := goTrimSpace ⟨num⟩
    let remainder := goTrimSpace ⟨t.data.drop num.length⟩
    (factor, if remainder = "" then none else some remainder)

/-- Extension AST `Amount` node: a factor string plus an optional unit. -/
structure Amount where
  factor : String
  unit : Option String
  deriving Repr, DecidableEq

/-- Extension AST `Ingredient` node. -/
structure Ingredient where
  name : String
  link : Option String
  amount : Option Amount
  deriving Repr, DecidableEq

/-- Name-collection loop of extension `parseIngredient`: walks the inline
siblings after the optional leading amount emphasis, threading the `name`
variable (set by the first link with a non-empty anchor), the accumulated
`nameParts`, and the last link destination seen. -/
def collectParts : List Inline → String → List String → Option String →
    String × List String × Option String
  | [], name, parts, lnk => (name, parts, lnk)
  | .link dest cs :: rest, name, parts, _ =>
    let linkText := extractTextList cs
    if name = "" then collectParts rest linkText parts (some dest)
    else collectParts rest name (parts ++ [linkText]) (some dest)
  | .text s :: rest, name, parts, lnk => collectParts rest name (parts ++ [s]) lnk
  | .emph _ cs :: rest, name, parts, lnk =>
    let t := extractTextList cs
    collectParts rest name (if t = "" then parts else parts ++ [t]) lnk

/-- Leading-amount step of extension `parseIngredient`: if the first inline
node is a level-1 emphasis, its flattened text is fed to `parseAmount` and
consumed; otherwise no amount is produced. -/
def leadingAmount : List Inline → Option Amount × List Inline
  | .emph 1 cs :: rest =>
    let fu := parseAmount (extractTextList cs)
    (some ⟨fu.1, fu.2⟩, rest)
  | item => (none, item)

/-- Extension `parseIngredient` applied to the inline content of one list
item: an optional leading level-1 emphasis is parsed as the amount, the rest
is collected into the name and optional link; returns `none` (the item is
dropped) when the collected name is the empty string. -/
def parseIngredient (item : List Inline) : Option Ingredient :=
  let p := leadingAmount item
  let c := collectParts p.2 "" [] none
  let name := if c.1 = "" ∧ c.2.1 ≠ [] then String.join c.2.1 else c.1
  if name = "" then none
  else some { name := goTrimSpace name, link := c.2.2, amount := p.1 }

/-- Extension `parseIngredients`: parse each list item, skipping items for
which `parseIngredient` returns nil. -/
def parseIngredients (items : List (List Inline)) : List Ingredient :=
  items.filterMap parseIngredient

/-- The name `parseIngredient` collects before the final emptiness check and
trimming: the first non-empty link anchor if a link is present, otherwise the
concatenation of the remaining inline texts. -/
def collectedName (item : List Inline) : String :=
  let c := collectParts (leadingAmount item).2 "" [] none
  if c.1 = "" ∧ c.2.1 ≠ [] then String.join c.2.1 else c.1

/-! ## The extension package's comma splitter -/

/-- Flush step of `splitTags`: trim the accumulated run, discard it if empty. -/
def flushTag (current : List Char) : List String :=
  let tag := goTrimSpace ⟨current⟩
  if tag = "" then [] else [tag]

/-- The rune loop of extension `splitTags`: a comma is a separator unless the
runes immediately before and after it both satisfy `unicode.IsDigit`;
separators flush the trimmed, non-empty accumulated run. -/
def splitTagsAux : List Char → Option Char → List Char → List String → List String
  | [], _, current, acc => acc ++ flushTag current
  | c :: rest, prev, current, acc =>
    if c = ',' then
      let before := match prev with | some p => unicodeIsDigit p | none => false
      let after := match rest with | [] => false | d :: _ => unicodeIsDigit d
      if before && after then splitTagsAux rest (some c) (current ++ [c]) acc
      else splitTagsAux rest (some c) [] (acc ++ flushTag current)
    else splitTagsAux rest (some c) (current ++ [c]) acc

/-- Extension `splitTags`. -/
def splitTags (text : String) : List String := splitTagsAux text.data none [] []

/-- Extension `parseYields`: split with the same logic as tags, then parse
each trimmed part as an amount. -/
def parseYields (text : String) : List Amount :=
  (splitTags text).map fun part =>
    let p := goTrimSpace part
    let fu := parseAmount p
    ⟨fu.1, fu.2⟩

/-- Prepend a character to the first segment (creating it if none exists). -/
def consHead (c : Char) : List (List Char) → List (List Char)
  | [] => [[c]]
  | s :: ss => (c :: s) :: ss

/-- Declarative comma splitting as the specification words it, parameterised
by the digit predicate: the raw runs between separator commas, in order.  A
comma is a separator iff not both the immediately preceding and the
immediately following characters are digits. -/
def rawSegments (digit : Char → Bool) : List Char → Option Char → List (List Char)
  | [], _ => [[]]
  | c :: rest, prev =>
    if c = ',' then
      let before := match prev with | some p => digit p | none => false
      let after := match rest with | [] => false | d :: _ => digit d
      if before && after then consHead c (rawSegments digit rest (some c))
      else [] :: rawSegments digit rest (some c)
    else consHead c (rawSegments digit rest (some c))

/-- Declarative comma splitter: each raw run is trimmed and empty results are
discarded. -/
def commaSplitSpec (digit : Char → Bool) (text : String) : List String :=
  ((rawSegments digit text.data none).map (fun l => goTrimSpace ⟨l⟩)).filter
    (fun s => s != "")

/-- Trim-and-discard applied to a list of raw runs. -/
def trimFilter (segs : List (List Char)) : List String :=
  (segs.map (fun l => goTrimSpace ⟨l⟩)).filter (fun s => s != "")

/-- Prepend an already-accumulated run to the first segment. -/
def prependHead (cur : List Char) : List (List Char) → List (List Char)
  | [] => [cur]
  | s :: ss => (cur ++ s) :: ss

theorem rawSegments_ne_nil (digit : Char → Bool) :
    ∀ (l : List Char) (prev : Option Char), rawSegments digit l prev ≠ [] := by
  intro l
  induction l with
  | nil => intro prev; simp [rawSegments]
  | cons c rest ih =>
    intro prev
    simp only [rawSegments]
    split
    · split
      · rcases h : rawSegments digit rest (some c) with _ | ⟨s, ss⟩
        · exact absurd h (ih (some c))
        · simp [consHead]
      · simp
    · rcases h : rawSegments digit rest (some c) with _ | ⟨s, ss⟩
      · exact absurd h (ih (some c))
      · simp [consHead]

theorem trimFilter_cons (s : List Char) (ss : List (List Char)) :
    trimFilter (s :: ss) = flushTag s ++ trimFilter ss := by
  simp only [trimFilter, flushTag, List.map_cons, List.filter_cons]
  split
  · rename_i h
    rw [if_neg]
    simp only [List.singleton_append]
    intro hc
    rw [hc] at h
    simp at h
  · rename_i h
    rw [if_pos]
    simp only [List.nil_append]
    simp only [bne_iff_ne, ne_eq, Decidable.not_not] at h
    exact h

theorem splitTagsAux_eq_trimFilter :
    ∀ (l : List Char) (prev : Option Char) (cur : List Char) (acc : List String),
      splitTagsAux l prev cur acc =
        acc ++ trimFilter (prependHead cur (rawSegments unicodeIsDigit l prev)) := by
  intro l
  induction l with
  | nil =>
    intro prev cur acc
    have h1 : prependHead cur [([] : List Char)] = [cur] := by simp [prependHead]
    simp only [splitTagsAux, rawSegments, h1, trimFilter_cons]
    simp [trimFilter]
  | cons c rest ih =>
    intro prev cur acc
    simp only [splitTagsAux, rawSegments]
    have hne := rawSegments_ne_nil unicodeIsDigit rest (some c)
    rcases hseg : rawSegments unicodeIsDigit rest (some c) with _ | ⟨s, ss⟩
    · exact absurd hseg hne
    · split
      · split
        · rw [ih (some c) (cur ++ [c]) acc, hseg]
          simp [prependHead, consHead, List.append_assoc]
        · rw [ih (some c) [] (acc ++ flushTag cur), hseg]
          simp [prependHead, trimFilter_cons, List.append_assoc]
      · rw [ih (some c) (cur ++ [c]) acc, hseg]
        simp [prependHead, consHead, List.append_assoc]

/-- Claim C2 (counterexample): the code's digit test is Go's `unicode.IsDigit`
(Unicode category Nd), not the ASCII digit test the claim states.  A comma
between two Arabic-Indic digits is kept by the code, while the claim's ASCII
reading demands a split there. -/
theorem splitTags_ascii_digit_claim_false :
    splitTags "١,٢" = ["١,٢"] ∧
    commaSplitSpec (fun c => c.isDigit) "١,٢" = ["١", "٢"] ∧
    splitTags "١,٢" ≠ commaSplitSpec (fun c => c.isDigit) "١,٢" := by
  refine ⟨by decide, by decide, by decide⟩

/-- Claim C2 (amended): for every input string, `splitTags` splits at a comma
iff it is not the case that the characters immediately before and after are
both decimal digits in the sense of Go's `unicode.IsDigit` (Unicode Nd, which
coincides with ASCII digits on ASCII input); each run is trimmed and empty
results are discarded.  The two example splits hold, and the yields text is
split by exactly the same function. -/
theorem splitTags_characterization :
    (∀ s, splitTags s = commaSplitSpec unicodeIsDigit s) ∧
    splitTags "4 servings, 1,5 kg" = ["4 servings", "1,5 kg"] ∧
    splitTags "tag1, tag2, tag3" = ["tag1", "tag2", "tag3"] ∧
    (∀ s, parseYields s = (splitTags s).map fun part =>
      let p := goTrimSpace part
      let fu := parseAmount p
      Amount.mk fu.1 fu.2) := by
  refine ⟨?_, by decide, by decide, fun s => rfl⟩
  intro s
  have hne := rawSegments_ne_nil unicodeIsDigit s.data none
  rw [splitTags, splitTagsAux_eq_trimFilter, commaSplitSpec]
  rcases hseg : rawSegments unicodeIsDigit s.data none with _ | ⟨t, ts⟩
  · exact absurd hseg hne
  · simp [prependHead, trimFilter]

/-- Claim C1 (code evaluation at the failing inputs): the extension's
`parseAmount` performs no numeric evaluation.  The mixed number `"2 1/4"`
comes back as the literal factor string `"2 1/4"`, not the number 2.25, and a
vulgar-fraction codepoint is not recognised at all: the whole span ends up in
the factor with no unit. -/
theorem parseAmount_returns_literal_strings :
    parseAmount "2 1/4 cups" = ("2 1/4", some "cups") ∧
    parseAmount "2 1/4" = ("2 1/4", none) ∧
    parseAmount "½" = ("½", none) ∧
    parseAmount "½ cup" = ("½ cup", none) ∧
    parseAmount "1,5 Tassen" = ("1,5", some "Tassen") ∧
    parseAmount "3/4" = ("3/4", none) ∧
    parseAmount "1.5" = ("1.5", none) := by
  refine ⟨by decide, by decide, by decide, by decide, by decide, by decide, by decide⟩

/-- Claim C7 (code evaluation at the two spec inputs): the emphasis-led item
keeps its numeric prefix as the literal factor string `"2 1/4"` with unit
`"cups"` (there is no numeric 2.25 and no `OriginalText` field), and the
link-only item parses as claimed. -/
theorem parseIngredient_spec_examples :
    parseIngredient [.emph 1 [.text "2 1/4 cups"], .text " all-purpose flour"] =
      some ⟨"all-purpose flour", none, some ⟨"2 1/4", some "cups"⟩⟩ ∧
    parseIngredient [.link "./pie-crust.md" [.text "pie crust"]] =
      some ⟨"pie crust", some "./pie-crust.md", none⟩ := by
  refine ⟨by decide, by decide⟩

/-- Claim C8 (counterexample): a list item whose name text is whitespace-only
has an empty name after trimming, yet it is not dropped — it is kept as an
ingredient with empty `Name` (and it lands in the ingredient list).  The
emptiness check in `parseIngredient` runs before trimming, and no warning is
recorded anywhere (the code has no warning mechanism). -/
theorem parseIngredient_whitespace_name_kept :
    goTrimSpace " " = "" ∧
    parseIngredient [.emph 1 [.text "1"], .text " "] =
      some ⟨"", none, some ⟨"1", none⟩⟩ ∧
    parseIngredients [[.emph 1 [.text "1"], .text " "]] =
      [⟨"", none, some ⟨"1", none⟩⟩] := by
  refine ⟨by decide, by decide, by decide⟩

/-- Claim C8 (amended): an item is dropped — silently, there is no warning
mechanism — iff the name collected before trimming is the empty string; a
kept item's `Name` is the trimmed collected name, which may be empty for
whitespace-only names.  Dropped items contribute nothing: the list parser is
exactly `filterMap parseIngredient`, and the parse never fails. -/
theorem parseIngredient_eq (item : List Inline) :
    parseIngredient item =
      if collectedName item = "" then none
      else some { name := goTrimSpace (collectedName item),
                  link := (collectParts (leadingAmount item).2 "" [] none).2.2,
                  amount := (leadingAmount item).1 } := rfl

theorem parseIngredient_drop_characterization :
    (∀ item, parseIngredient item = none ↔ collectedName item = "") ∧
    (∀ item ing, parseIngredient item = some ing →
      ing.name = goTrimSpace (collectedName item)) ∧
    (∀ items, parseIngredients items = items.filterMap parseIngredient) := by
  refine ⟨?_, ?_, fun items => rfl⟩
  · intro item
    rw [parseIngredient_eq]
    split <;> simp_all
  · intro item ing
    rw [parseIngredient_eq]
    split
    · intro h
      cases h
    · intro h
      cases h
      rfl

/-! ## The extension package's recipe parser (`recipeParser.Transform`)

The transformer walks the document's top-level blocks once, threading mutable
state; groups are mutable tree nodes, modelled here as an arena of nodes whose
children are ingredients or indices of later-allocated groups.  The extension
package's `renderNode` coincides with `extractText` on this block model (its
special cases — code blocks, images, raw HTML — are outside the model, and
all remaining cases flatten to the text leaves). -/

/-- Extension `isFullyItalic`: the paragraph's only child is a level-1
emphasis. -/
def isFullyItalic : List Inline → Bool
  | [.emph lvl _] => lvl == 1
  | _ => false

/-- Extension `isFullyBold`: the paragraph's only child is a level-2
emphasis. -/
def isFullyBold : List Inline → Bool
  | [.emph lvl _] => lvl == 2
  | _ => false

/-- Arena node for an extension `ast.IngredientGroup`. -/
structure GroupNode where
  title : String
  level : Nat
  children : List (Ingredient ⊕ Nat)
  deriving DecidableEq

/-- Append a child to the arena node at index `i` (pointer mutation
`parent.AppendChild`); out-of-range indices never occur. -/
def appendChildAt (arena : List GroupNode) (i : Nat) (c : Ingredient ⊕ Nat) :
    List GroupNode :=
  match arena.get? i with
  | some g => arena.set i { g with children := g.children ++ [c] }
  | none => arena

/-- Heading level of the arena node at index `i`. -/
def levelAt (arena : List GroupNode) (i : Nat) : Nat :=
  ((arena.get? i).map (·.level)).getD 0

/-- State threaded by `recipeParser.Transform` (the stack holds arena indices,
top first; Go keeps the top at the end of a slice). -/
structure ExtState where
  title : String
  descriptionParts : List String
  tagsNode : Option (List String)
  yieldsNode : Option (List Amount)
  firstDividerFound : Bool
  secondDividerFound : Bool
  currentIngredientList : Option (List Ingredient)
  arena : List GroupNode
  stack : List Nat
  topLevelGroups : List Nat
  instructionParts : List String
  deriving DecidableEq

/-- Initial transformer state. -/
def initExtState : ExtState := ⟨"", [], none, none, false, false, none, [], [], [], []⟩

/-- Pop loop of `addIngredientGroup`: pop while the top entry's level is not
strictly smaller than the new group's level; return the stack once a strictly
shallower parent is on top, or `none` if the stack empties. -/
def findParent (arena : List GroupNode) (lvl : Nat) : List Nat → Option (List Nat)
  | [] => none
  | top :: rest =>
    if lvl > levelAt arena top then some (top :: rest)
    else findParent arena lvl rest

/-- Extension `addIngredientGroup`: reset the current ungrouped ingredient
list, pop same-or-deeper groups, then attach the new group to the parent on
top of the stack or at top level, and push it. -/
def addIngredientGroup (st : ExtState) (gtitle : String) (lvl : Nat) : ExtState :=
  let newId := st.arena.length
  let st := { st with currentIngredientList := none }
  match findParent st.arena lvl st.stack with
  | some (top :: rest) =>
    { st with
      arena := appendChildAt st.arena top (.inr newId) ++ [⟨gtitle, lvl, []⟩],
      stack := newId :: top :: rest }
  | _ =>
    { st with
      arena := st.arena ++ [⟨gtitle, lvl, []⟩],
      stack := [newId],
      topLevelGroups := st.topLevelGroups ++ [newId] }

/-- One step of `recipeParser.Transform`'s switch over a top-level block. -/
def extStep (st : ExtState) : Block → ExtState
  | .heading lvl cs =>
    if lvl = 1 ∧ st.title = "" then { st with title := extractTextList cs }
    else if st.firstDividerFound ∧ ¬ st.secondDividerFound then
      addIngredientGroup st (extractTextList cs) lvl
    else if st.secondDividerFound then
      { st with instructionParts := st.instructionParts ++ [extractTextList cs] }
    else st
  | .para cs =>
    if st.title = "" then st
    else if ¬ st.firstDividerFound then
      if isFullyItalic cs then
        { st with tagsNode := some (splitTags (extractTextList cs)) }
      else if isFullyBold cs then
        { st with yieldsNode := some (parseYields (extractTextList cs)) }
      else
        { st with descriptionParts := st.descriptionParts ++ [extractTextList cs] }
    else if st.secondDividerFound then
      { st with instructionParts := st.instructionParts ++ [extractTextList cs] }
    else st
  | .list items =>
    if st.firstDividerFound ∧ ¬ st.secondDividerFound then
      let ings := parseIngredients items
      match st.stack with
      | top :: _ =>
        { st with arena := ings.foldl (fun a i => appendChildAt a top (.inl i)) st.arena }
      | [] =>
        let cur := st.currentIngredientList.getD []
        { st with currentIngredientList := some (cur ++ ings) }
    else if st.secondDividerFound then
      { st with instructionParts := st.instructionParts ++ [extractTextB (.list items)] }
    else st
  | .thematicBreak =>
    if ¬ st.firstDividerFound then { st with firstDividerFound := true }
    else if ¬ st.secondDividerFound then { st with secondDividerFound := true }
    else st
  | .other cs =>
    if st.secondDividerFound then
      { st with instructionParts := st.instructionParts ++ [extractTextList cs] }
    else if ¬ st.firstDividerFound ∧ st.title ≠ "" then
      { st with descriptionParts := st.descriptionParts ++ [extractTextList cs] }
    else st

/-- The full transformer walk. -/
def extTransform (bs : List Block) : ExtState := bs.foldl extStep initExtState

/-- Recursive group shape as produced by the extension JSON renderer's
`buildIngredientGroup`: title, direct ingredients, nested sub-groups. -/
inductive ExtGroupData where
  | mk (title : String) (ingredients : List Ingredient) (groups : List ExtGroupData)

/-- Resolve an arena index into the recursive group shape (children indices
always point to later-allocated nodes, so `arena.length` fuel suffices). -/
def resolveGroup (arena : List GroupNode) : Nat → Nat → ExtGroupData
  | 0, _ => .mk "" [] []
  | fuel + 1, i =>
    match arena.get? i with
    | none => .mk "" [] []
    | some g =>
      .mk g.title
        (g.children.filterMap fun c =>
          match c with | .inl ing => some ing | .inr _ => none)
        (g.children.filterMap fun c =>
          match c with | .inr j => some (resolveGroup arena fuel j) | .inl _ => none)

/-- The JSON document the extension pipeline emits for a recipe
(`JSONRenderer.buildRecipeData` applied to the transformed AST). -/
structure ExtRecipeData where
  title : String
  description : Option String
  tags : List String
  yields : List Amount
  ingredients : List Ingredient
  groups : List ExtGroupData
  instructions : Option String

/-- Transform a block list and export it through the extension JSON renderer. -/
def extRecipeData (bs : List Block) : ExtRecipeData :=
  let st := extTransform bs
  let desc := goTrimSpace (String.intercalate "\n\n" st.descriptionParts)
  let instr := goTrimSpace (String.intercalate "\n\n" st.instructionParts)
  { title := st.title,
    description := if desc = "" then none else some desc,
    tags := st.tagsNode.getD [],
    yields := st.yieldsNode.getD [],
    ingredients := st.currentIngredientList.getD [],
    groups := st.topLevelGroups.map (resolveGroup st.arena st.arena.length),
    instructions := if st.instructionParts ≠ [] ∧ instr ≠ "" then some instr else none }

/-- Claim C3 (code evaluation at the failing input): for the node sequence
`[list, h2, list, h3, list, h2, list]` the nesting of groups comes out as the
claim describes (level-2 group with nested level-3 sub-group, then a sibling
level-2 group), but the top-level ungrouped ingredient `i0` is lost:
`addIngredientGroup` clears the `currentIngredientList` pointer when the
first heading arrives, so the already-collected ungrouped list is never
attached to the recipe and the exported `ingredients` array is empty. -/
theorem ungrouped_ingredient_dropped_before_groups :
    extRecipeData
      [.heading 1 [.text "T"], .thematicBreak,
       .list [[.text "i0"]],
       .heading 2 [.text "A"], .list [[.text "i1"]],
       .heading 3 [.text "B"], .list [[.text "i2"]],
       .heading 2 [.text "C"], .list [[.text "i3"]]] =
      { title := "T", description := none, tags := [], yields := [],
        ingredients := [],
        groups := [.mk "A" [⟨"i1", none, none⟩] [.mk "B" [⟨"i2", none, none⟩] []],
                   .mk "C" [⟨"i3", none, none⟩] []],
        instructions := none } := rfl

theorem addIngredientGroup_title (st : ExtState) (t : String) (l : Nat) :
    (addIngredientGroup st t l).title = st.title := by
  simp only [addIngredientGroup]; split <;> rfl

theorem addIngredientGroup_tagsNode (st : ExtState) (t : String) (l : Nat) :
    (addIngredientGroup st t l).tagsNode = st.tagsNode := by
  simp only [addIngredientGroup]; split <;> rfl

theorem addIngredientGroup_yieldsNode (st : ExtState) (t : String) (l : Nat) :
    (addIngredientGroup st t l).yieldsNode = st.yieldsNode := by
  simp only [addIngredientGroup]; split <;> rfl

theorem addIngredientGroup_descriptionParts (st : ExtState) (t : String) (l : Nat) :
    (addIngredientGroup st t l).descriptionParts = st.descriptionParts := by
  simp only [addIngredientGroup]; split <;> rfl

theorem addIngredientGroup_firstDividerFound (st : ExtState) (t : String) (l : Nat) :
    (addIngredientGroup st t l).firstDividerFound = st.firstDividerFound := by
  simp only [addIngredientGroup]; split <;> rfl

theorem addIngredientGroup_secondDividerFound (st : ExtState) (t : String) (l : Nat) :
    (addIngredientGroup st t l).secondDividerFound = st.secondDividerFound := by
  simp only [addIngredientGroup]; split <;> rfl

theorem extStep_heading_meta (st : ExtState) (lvl : Nat) (cs : List Inline) :
    (extStep st (.heading lvl cs)).tagsNode = st.tagsNode ∧
    (extStep st (.heading lvl cs)).yieldsNode = st.yieldsNode ∧
    (extStep st (.heading lvl cs)).descriptionParts = st.descriptionParts ∧
    (extStep st (.heading lvl cs)).firstDividerFound = st.firstDividerFound ∧
    (extStep st (.heading lvl cs)).secondDividerFound = st.secondDividerFound ∧
    (extStep st (.heading lvl cs)).title =
      (if lvl = 1 ∧ st.title = "" then extractTextList cs else st.title) := by
  by_cases h1 : lvl = 1 ∧ st.title = ""
  · simp [extStep, h1]
  · by_cases h2 : st.firstDividerFound ∧ ¬ st.secondDividerFound
    · simp [extStep, h1, h2, addIngredientGroup_title, addIngredientGroup_tagsNode,
        addIngredientGroup_yieldsNode, addIngredientGroup_descriptionParts,
        addIngredientGroup_firstDividerFound, addIngredientGroup_secondDividerFound]
    · by_cases h3 : st.secondDividerFound
      · simp [extStep, h1, h2, h3]
      · cases hf : st.firstDividerFound
        · simp [extStep, h1, h2, h3, hf]
        · exact absurd ⟨hf, h3⟩ h2

theorem extStep_list_meta (st : ExtState) (items : List (List Inline)) :
    (extStep st (.list items)).tagsNode = st.tagsNode ∧
    (extStep st (.list items)).yieldsNode = st.yieldsNode ∧
    (extStep st (.list items)).descriptionParts = st.descriptionParts ∧
    (extStep st (.list items)).firstDividerFound = st.firstDividerFound ∧
    (extStep st (.list items)).secondDividerFound = st.secondDividerFound ∧
    (extStep st (.list items)).title = st.title := by
  by_cases h1 : st.firstDividerFound ∧ ¬ st.secondDividerFound
  · cases hs : st.stack <;> simp [extStep, h1, hs]
  · by_cases h2 : st.secondDividerFound
    · simp [extStep, h1, h2]
    · cases hf : st.firstDividerFound
      · simp [extStep, h1, h2, hf]
      · exact absurd ⟨hf, h2⟩ h1

theorem extStep_break_meta (st : ExtState) :
    (extStep st .thematicBreak).tagsNode = st.tagsNode ∧
    (extStep st .thematicBreak).yieldsNode = st.yieldsNode ∧
    (extStep st .thematicBreak).descriptionParts = st.descriptionParts ∧
    (extStep st .thematicBreak).firstDividerFound = true ∧
    (extStep st .thematicBreak).title = st.title := by
  by_cases h1 : st.firstDividerFound
  · by_cases h2 : st.secondDividerFound <;> simp [extStep, h1, h2]
  · simp [extStep, h1]

theorem isFullyItalic_bold_exclusive (cs : List Inline) :
    ¬ (isFullyItalic cs = true ∧ isFullyBold cs = true) := by
  rintro ⟨hi, hb⟩
  rcases cs with _ | ⟨i, rest⟩
  · simp [isFullyItalic] at hi
  · rcases rest with _ | ⟨j, rest⟩
    · cases i with
      | text s => simp [isFullyItalic] at hi
      | emph lvl cs' =>
        simp [isFullyItalic] at hi
        simp [isFullyBold] at hb
        omega
      | link d cs' => simp [isFullyItalic] at hi
    · simp [isFullyItalic] at hi

/-- Metadata-region paragraph texts matching predicate `p`: texts of the
paragraphs processed after the title has been established and before the
first thematic break, in document order. -/
def metaParaTexts (p : List Inline → Bool) : List Block → String → Bool → List String
  | [], _, _ => []
  | .heading lvl cs :: rest, title, afterBreak =>
    metaParaTexts p rest
      (if lvl = 1 ∧ title = "" then extractTextList cs else title) afterBreak
  | .thematicBreak :: rest, title, _ => metaParaTexts p rest title true
  | .para cs :: rest, title, afterBreak =>
    (if title ≠ "" ∧ ¬ afterBreak = true ∧ p cs then [extractTextList cs] else []) ++
      metaParaTexts p rest title afterBreak
  | .list _ :: rest, title, afterBreak => metaParaTexts p rest title afterBreak
  | .other _ :: rest, title, afterBreak => metaParaTexts p rest title afterBreak

/-- Description texts of the metadata region: paragraphs that are neither
tags-shaped nor yields-shaped, and other (non-heading, non-list) block nodes. -/
def metaDescTexts : List Block → String → Bool → List String
  | [], _, _ => []
  | .heading lvl cs :: rest, title, afterBreak =>
    metaDescTexts rest
      (if lvl = 1 ∧ title = "" then extractTextList cs else title) afterBreak
  | .thematicBreak :: rest, title, _ => metaDescTexts rest title true
  | .para cs :: rest, title, afterBreak =>
    (if title ≠ "" ∧ ¬ afterBreak = true ∧ ¬ isFullyItalic cs ∧ ¬ isFullyBold cs
      then [extractTextList cs] else []) ++
      metaDescTexts rest title afterBreak
  | .list _ :: rest, title, afterBreak => metaDescTexts rest title afterBreak
  | .other cs :: rest, title, afterBreak =>
    (if title ≠ "" ∧ ¬ afterBreak = true then [extractTextList cs] else []) ++
      metaDescTexts rest title afterBreak

/-- The last element of the stream through `f`, defaulting to `o`. -/
def lastWith (f : String → α) : List String → Option α → Option α
  | [], o => o
  | t :: xs, _ => lastWith f xs (some (f t))

theorem lastWith_eq_getLast? (f : String → α) :
    ∀ (xs : List String) (o : Option α),
      lastWith f xs o = match xs.getLast? with | some t => some (f t) | none => o := by
  intro xs
  induction xs with
  | nil => intro o; rfl
  | cons t xs ih =>
    intro o
    rw [lastWith, ih]
    cases xs with
    | nil => rfl
    | cons u us =>
      rw [List.getLast?_cons_cons]
      rcases h : (u :: us).getLast? with _ | v
      · rw [List.getLast?_eq_none_iff] at h
        exact absurd h (List.cons_ne_nil u us)
      · rfl

theorem extStep_para_meta (st : ExtState) (cs : List Inline) :
    (extStep st (.para cs)).firstDividerFound = st.firstDividerFound ∧
    (extStep st (.para cs)).secondDividerFound = st.secondDividerFound ∧
    (extStep st (.para cs)).title = st.title ∧
    (extStep st (.para cs)).tagsNode =
      (if st.title ≠ "" ∧ ¬ st.firstDividerFound = true ∧ isFullyItalic cs
        then some (splitTags (extractTextList cs)) else st.tagsNode) ∧
    (extStep st (.para cs)).yieldsNode =
      (if st.title ≠ "" ∧ ¬ st.firstDividerFound = true ∧ isFullyBold cs
        then some (parseYields (extractTextList cs)) else st.yieldsNode) ∧
    (extStep st (.para cs)).descriptionParts =
      st.descriptionParts ++
        (if st.title ≠ "" ∧ ¬ st.firstDividerFound = true ∧
            ¬ isFullyItalic cs ∧ ¬ isFullyBold cs
          then [extractTextList cs] else []) := by
  by_cases ht : st.title = ""
  · simp [extStep, ht]
  · cases hfd : st.firstDividerFound
    · by_cases hit : isFullyItalic cs
      · have hbd : isFullyBold cs = false := by
          cases h : isFullyBold cs
          · rfl
          · exact absurd ⟨hit, h⟩ (isFullyItalic_bold_exclusive cs)
        simp [extStep, ht, hfd, hit, hbd]
      · by_cases hbd : isFullyBold cs
        · simp [extStep, ht, hfd, hit, hbd]
        · simp [extStep, ht, hfd, hit, hbd]
    · by_cases h2 : st.secondDividerFound <;> simp [extStep, ht, hfd, h2]

theorem extStep_other_meta (st : ExtState) (cs : List Inline)
    (hdiv : st.secondDividerFound = true → st.firstDividerFound = true) :
    (extStep st (.other cs)).firstDividerFound = st.firstDividerFound ∧
    (extStep st (.other cs)).secondDividerFound = st.secondDividerFound ∧
    (extStep st (.other cs)).title = st.title ∧
    (extStep st (.other cs)).tagsNode = st.tagsNode ∧
    (extStep st (.other cs)).yieldsNode = st.yieldsNode ∧
    (extStep st (.other cs)).descriptionParts =
      st.descriptionParts ++
        (if st.title ≠ "" ∧ ¬ st.firstDividerFound = true
          then [extractTextList cs] else []) := by
  by_cases h2 : st.secondDividerFound
  · have hf := hdiv h2
    simp [extStep, h2, hf]
  · cases hfd : st.firstDividerFound
    · by_cases ht : st.title = ""
      · simp [extStep, h2, hfd, ht]
      · simp [extStep, h2, hfd, ht]
    · simp [extStep, h2, hfd]

theorem extStep_divs (st : ExtState) (b : Block)
    (hdiv : st.secondDividerFound = true → st.firstDividerFound = true) :
    (extStep st b).secondDividerFound = true → (extStep st b).firstDividerFound = true := by
  cases b with
  | heading lvl cs =>
    obtain ⟨_, _, _, h4, h5, _⟩ := extStep_heading_meta st lvl cs
    rw [h4, h5]; exact hdiv
  | para cs =>
    obtain ⟨h1, h2, _, _, _, _⟩ := extStep_para_meta st cs
    rw [h1, h2]; exact hdiv
  | list items =>
    obtain ⟨_, _, _, h4, h5, _⟩ := extStep_list_meta st items
    rw [h4, h5]; exact hdiv
  | thematicBreak =>
    obtain ⟨_, _, _, h4, _⟩ := extStep_break_meta st
    rw [h4]; intro; rfl
  | other cs =>
    obtain ⟨h1, h2, _, _, _, _⟩ := extStep_other_meta st cs hdiv
    rw [h1, h2]; exact hdiv

theorem ext_fold_meta : ∀ (bs : List Block) (st : ExtState),
    (st.secondDividerFound = true → st.firstDividerFound = true) →
    (bs.foldl extStep st).tagsNode
        = lastWith splitTags
            (metaParaTexts isFullyItalic bs st.title st.firstDividerFound) st.tagsNode ∧
    (bs.foldl extStep st).yieldsNode
        = lastWith parseYields
            (metaParaTexts isFullyBold bs st.title st.firstDividerFound) st.yieldsNode ∧
    (bs.foldl extStep st).descriptionParts
        = st.descriptionParts ++ metaDescTexts bs st.title st.firstDividerFound := by
  intro bs
  induction bs with
  | nil =>
    intro st _
    simp [metaParaTexts, metaDescTexts, lastWith]
  | cons b rest ih =>
    intro st hdiv
    rw [List.foldl_cons]
    obtain ⟨t1, t2, t3⟩ := ih (extStep st b) (extStep_divs st b hdiv)
    cases b with
    | heading lvl cs =>
      obtain ⟨h1, h2, h3, h4, _, h6⟩ := extStep_heading_meta st lvl cs
      rw [t1, t2, t3, h1, h2, h3, h4, h6]
      simp [metaParaTexts, metaDescTexts]
    | thematicBreak =>
      obtain ⟨h1, h2, h3, h4, h5⟩ := extStep_break_meta st
      rw [t1, t2, t3, h1, h2, h3, h4, h5]
      simp [metaParaTexts, metaDescTexts]
    | list items =>
      obtain ⟨h1, h2, h3, h4, _, h6⟩ := extStep_list_meta st items
      rw [t1, t2, t3, h1, h2, h3, h4, h6]
      simp [metaParaTexts, metaDescTexts]
    | para cs =>
      obtain ⟨h1, h2, h3, h4, h5, h6⟩ := extStep_para_meta st cs
      rw [t1, t2, t3, h1, h3, h4, h5, h6]
      simp only [metaParaTexts, metaDescTexts]
      refine ⟨?_, ?_, ?_⟩
      · split <;> simp [lastWith]
      · split <;> simp [lastWith]
      · split <;> simp [List.append_assoc]
    | other cs =>
      obtain ⟨h1, h2, h3, h4, h5, h6⟩ := extStep_other_meta st cs hdiv
      rw [t1, t2, t3, h1, h3, h4, h5, h6]
      simp only [metaParaTexts, metaDescTexts]
      refine ⟨trivial, trivial, ?_⟩
      split <;> simp [List.append_assoc]

/-- Document with duplicate tags and yields paragraphs. -/
def docWithDuplicateTagsYields : List Block :=
  [.heading 1 [.text "T"],
   .para [.emph 1 [.text "a"]], .para [.emph 1 [.text "b"]],
   .para [.emph 2 [.text "1 x"]], .para [.emph 2 [.text "2 y"]]]

/-- Claim C5 (counterexample): when two paragraphs classify as Tags and two
as Yields, the code keeps the LAST of each — the claim's first paragraph
loses — and the losing paragraphs are discarded outright: nothing is folded
into the description, and the code records no warning (it has no warning
mechanism at all). -/
theorem duplicate_tags_yields_last_wins_example :
    (extRecipeData docWithDuplicateTagsYields).tags = ["b"] ∧
    (extRecipeData docWithDuplicateTagsYields).yields = [⟨"2", some "y"⟩] ∧
    (extRecipeData docWithDuplicateTagsYields).description = none ∧
    (extRecipeData docWithDuplicateTagsYields).tags ≠ ["a"] ∧
    (extRecipeData docWithDuplicateTagsYields).yields ≠ [⟨"1", some "x"⟩] := by
  refine ⟨by decide, by decide, by decide, by decide, by decide⟩

/-- Claim C5 (amended): for every document, the Tags (resp. Yields) of the
parsed recipe come from the LAST paragraph in the metadata region that
classifies as Tags (resp. Yields) — each later match overwrites the earlier
one — and the Description collects exactly the region's non-matching
content, so overridden matches are not folded into the Description; the
transformer state carries no diagnostics, so no warning is recorded. -/
theorem tags_yields_last_match_wins (bs : List Block) :
    (extTransform bs).tagsNode
      = ((metaParaTexts isFullyItalic bs "" false).getLast?).map splitTags ∧
    (extTransform bs).yieldsNode
      = ((metaParaTexts isFullyBold bs "" false).getLast?).map parseYields ∧
    (extTransform bs).descriptionParts = metaDescTexts bs "" false := by
  obtain ⟨t1, t2, t3⟩ := ext_fold_meta bs initExtState (by intro h; simp [initExtState] at h)
  refine ⟨?_, ?_, ?_⟩
  · rw [extTransform, t1, lastWith_eq_getLast?]
    show (match (metaParaTexts isFullyItalic bs "" false).getLast? with
      | some t => some (splitTags t) | none => initExtState.tagsNode) = _
    cases (metaParaTexts isFullyItalic bs "" false).getLast? <;> rfl
  · rw [extTransform, t2, lastWith_eq_getLast?]
    show (match (metaParaTexts isFullyBold bs "" false).getLast? with
      | some t => some (parseYields t) | none => initExtState.yieldsNode) = _
    cases (metaParaTexts isFullyBold bs "" false).getLast? <;> rfl
  · rw [extTransform, t3]
    rfl

/-- Level-1 heading test for the extension transformer. -/
def isH1 : Block → Bool
  | .heading lvl _ => lvl == 1
  | _ => false

theorem extStep_other_title (st : ExtState) (cs : List Inline) :
    (extStep st (.other cs)).title = st.title := by
  simp only [extStep]
  split
  · rfl
  · split <;> rfl

theorem title_empty_of_no_h1 :
    ∀ (pre : List Block) (st : ExtState),
      (∀ b ∈ pre, isH1 b = false) → st.title = "" →
      (pre.foldl extStep st).title = "" := by
  intro pre
  induction pre with
  | nil => intro st _ ht; exact ht
  | cons b rest ih =>
    intro st hall ht
    rw [List.foldl_cons]
    refine ih _ (fun x hx => hall x (List.mem_cons_of_mem b hx)) ?_
    cases b with
    | heading lvl cs =>
      have hlvl : isH1 (Block.heading lvl cs) = false := hall _ (List.mem_cons_self _ _)
      simp only [isH1] at hlvl
      obtain ⟨_, _, _, _, _, h6⟩ := extStep_heading_meta st lvl cs
      rw [h6, if_neg, ht]
      rintro ⟨h1, _⟩
      rw [h1] at hlvl
      simp at hlvl
    | para cs =>
      obtain ⟨_, _, h3, _, _, _⟩ := extStep_para_meta st cs
      rw [h3]; exact ht
    | list items =>
      obtain ⟨_, _, _, _, _, h6⟩ := extStep_list_meta st items
      rw [h6]; exact ht
    | thematicBreak =>
      obtain ⟨_, _, _, _, h5⟩ := extStep_break_meta st
      rw [h5]; exact ht
    | other cs =>
      rw [extStep_other_title]; exact ht

/-- Claim C10: a paragraph that occurs before the first level-1 heading is
discarded entirely — removing it from the document leaves the whole parsed
recipe (every field of the exported data) unchanged. -/
theorem paragraph_before_title_discarded (pre : List Block) (cs : List Inline)
    (post : List Block) (h : ∀ b ∈ pre, isH1 b = false) :
    extRecipeData (pre ++ Block.para cs :: post) = extRecipeData (pre ++ post) := by
  have ht : (pre.foldl extStep initExtState).title = "" :=
    title_empty_of_no_h1 pre initExtState h rfl
  have key : extTransform (pre ++ Block.para cs :: post) = extTransform (pre ++ post) := by
    rw [extTransform, extTransform, List.foldl_append, List.foldl_append, List.foldl_cons]
    have hstep : extStep (pre.foldl extStep initExtState) (.para cs)
        = pre.foldl extStep initExtState := by
      simp [extStep, ht]
    rw [hstep]
  unfold extRecipeData
  rw [key]

/-- Witness for claim C10 at a concrete document. -/
theorem paragraph_before_title_discarded_witness :
    (∀ b ∈ ([.para [.text "intro"], .heading 2 [.text "sub"]] : List Block),
      isH1 b = false) ∧
    extRecipeData ([.para [.text "intro"], .heading 2 [.text "sub"]] ++
        Block.para [.text "dropped"] :: [.heading 1 [.text "T"], .para [.text "desc"]]) =
      extRecipeData ([.para [.text "intro"], .heading 2 [.text "sub"]] ++
        [.heading 1 [.text "T"], .para [.text "desc"]]) :=
  ⟨by decide, paragraph_before_title_discarded _ _ _ (by decide)⟩

/-! ## The parser package (`recipeTransformer.Transform`)

This pipeline slices the document at its first two thematic breaks
(`firstBreakIdx`/`secondBreakIdx` index arithmetic, rendered here as recursive
splitting), classifies the metadata slice, and builds a flat group structure
from the ingredient slice. -/

/-- Thematic-break test. -/
def isBreak : Block → Bool
  | .thematicBreak => true
  | _ => false

/-- Split a block list at its first thematic break (the break itself is the
boundary and belongs to neither side). -/
def splitAtFirstBreak : List Block → Option (List Block × List Block)
  | [] => none
  | .thematicBreak :: rest => some ([], rest)
  | b :: rest =>
    match splitAtFirstBreak rest with
    | none => none
    | some (pre, post) => some (b :: pre, post)

/-- Section slicing of `recipeTransformer.Transform`: metadata before the
first break, ingredients between the first and second break (to the end of
input if there is no second break), instructions after the second break. -/
def sections (children : List Block) : List Block × List Block × List Block :=
  match splitAtFirstBreak children with
  | none => (children, [], [])
  | some (meta, rest) =>
    match splitAtFirstBreak rest with
    | none => (meta, rest, [])
    | some (ing, instr) => (meta, ing, instr)

/-- Loop of the parser package's `parseIngredientContent`: leading level-1
emphasis runs are amount parts until the first text node flips `inAmount`;
everything else joins the name parts. -/
def picLoop : List Inline → Bool → List String → List String → List String × List String
  | [], _, amounts, names => (amounts, names)
  | .emph lvl cs :: rest, inAmount, amounts, names =>
    if inAmount ∧ lvl = 1 then
      picLoop rest inAmount (amounts ++ [extractTextList cs]) names
    else picLoop rest inAmount amounts (names ++ [extractTextList cs])
  | .text s :: rest, _, amounts, names => picLoop rest false amounts (names ++ [s])
  | .link _ cs :: rest, inAmount, amounts, names =>
    picLoop rest inAmount amounts (names ++ [extractTextList cs])

/-- Parser-package `parseIngredientContent`: amount = trimmed space-join of
the amount parts, name = trimmed concatenation of the name parts. -/
def parseIngredientContent (is : List Inline) : String × String :=
  let p := picLoop is true [] []
  (goTrimSpace (String.intercalate " " p.1), goTrimSpace (String.join p.2))

/-- An entry of the parser-package `Ingredients` container: a bare ingredient
`(amount, name)` or a flat named group of such pairs. -/
inductive PEntry where
  | ing (amount : String) (name : String)
  | group (name : String) (ings : List (String × String))
  deriving DecidableEq, Repr

/-- Parser-package `processIngredients`: any heading opens a new flat group
which all later list items join; list items before the first heading are
appended bare.  The currently open group (Go's `currentGroup` pointer into
the container) is held in the accumulator's third component and flushed when
the next heading or the end of the slice arrives. -/
def processIngredientsAux :
    List Block → List PEntry → Option (String × List (String × String)) → List PEntry
  | [], acc, none => acc
  | [], acc, some (n, ings) => acc ++ [.group n ings]
  | .heading _ cs :: rest, acc, none =>
    processIngredientsAux rest acc (some (extractTextList cs, []))
  | .heading _ cs :: rest, acc, some (n, ings) =>
    processIngredientsAux rest (acc ++ [.group n ings]) (some (extractTextList cs, []))
  | .list items :: rest, acc, none =>
    processIngredientsAux rest
      (acc ++ items.map fun i => PEntry.ing (parseIngredientContent i).1 (parseIngredientContent i).2)
      none
  | .list items :: rest, acc, some (n, ings) =>
    processIngredientsAux rest acc
      (some (n, ings ++ items.map fun i =>
        ((parseIngredientContent i).1, (parseIngredientContent i).2)))
  | _ :: rest, acc, cur => processIngredientsAux rest acc cur

/-- Parser-package `processIngredients` applied to the ingredient slice. -/
def processIngredientsP (ns : List Block) : List PEntry := processIngredientsAux ns [] none

/-- Children of the parser-package `Recipe` node, in document order.  The
`tags`/`yields`/`title` wrappers keep the original block, `description`
collects its paragraphs, `instructions` re-parents the whole slice. -/
inductive PChild where
  | title (b : Block)
  | tags (b : Block)
  | yields (b : Block)
  | description (ps : List Block)
  | ingredients (es : List PEntry)
  | instructions (ns : List Block)

/-- Description-node test. -/
def isDescriptionChild : PChild → Bool
  | .description _ => true
  | _ => false

/-- Append a description paragraph into the already-created Description node
if one exists (it holds its original position), else create one at the end. -/
def addDescription (acc : List PChild) (p : Block) : List PChild :=
  if acc.any isDescriptionChild then
    acc.map fun c =>
      match c with
      | .description ps => .description (ps ++ [p])
      | c => c
  else acc ++ [.description [p]]

/-- One step of the parser-package `processMetadata` loop: level-1 headings
become Title nodes, paragraphs classify as Tags / Yields / Description (the
parser package's `isAllEmphasis`/`isAllStrong` coincide with the extension's
`isFullyItalic`/`isFullyBold` single-child emphasis checks), all other nodes
are dropped. -/
def metaStep (acc : List PChild) (b : Block) : List PChild :=
  match b with
  | .heading lvl cs =>
    if lvl = 1 then acc ++ [.title (.heading lvl cs)] else acc
  | .para cs =>
    if isFullyItalic cs then acc ++ [.tags (.para cs)]
    else if isFullyBold cs then acc ++ [.yields (.para cs)]
    else addDescription acc (.para cs)
  | _ => acc

/-- Parser-package `processMetadata`. -/
def processMetadataGo (nodes : List Block) : List PChild :=
  nodes.foldl metaStep []

/-- Parser-package `recipeTransformer.Transform`: slice, classify metadata,
build the ingredient entries when that slice is non-empty, re-parent the
instruction nodes when that slice is non-empty. -/
def transformP (bs : List Block) : List PChild :=
  let s := sections bs
  processMetadataGo s.1 ++
    (if s.2.1.isEmpty then [] else [.ingredients (processIngredientsP s.2.1)]) ++
    (if s.2.2.isEmpty then [] else [.instructions s.2.2])

theorem splitAtFirstBreak_cons_nonbreak (b : Block) (rest : List Block)
    (hb : isBreak b = false) :
    splitAtFirstBreak (b :: rest) =
      match splitAtFirstBreak rest with
      | none => none
      | some (pre, post) => some (b :: pre, post) := by
  cases b with
  | thematicBreak => simp [isBreak] at hb
  | heading lvl cs => rfl
  | para cs => rfl
  | list items => rfl
  | other cs => rfl

theorem splitAtFirstBreak_none :
    ∀ bs : List Block, splitAtFirstBreak bs = none ↔ ∀ b ∈ bs, isBreak b = false := by
  intro bs
  induction bs with
  | nil => simp [splitAtFirstBreak]
  | cons b rest ih =>
    by_cases hb : isBreak b = true
    · have hbrk : b = .thematicBreak := by
        cases b with
        | thematicBreak => rfl
        | heading lvl cs => simp [isBreak] at hb
        | para cs => simp [isBreak] at hb
        | list items => simp [isBreak] at hb
        | other cs => simp [isBreak] at hb
      subst hbrk
      simp [splitAtFirstBreak, isBreak]
    · have hb' : isBreak b = false := by simpa using hb
      rw [splitAtFirstBreak_cons_nonbreak b rest hb']
      constructor
      · intro h
        have hrest : splitAtFirstBreak rest = none := by
          cases hs : splitAtFirstBreak rest with
          | none => rfl
          | some p => rcases p with ⟨p1, p2⟩; rw [hs] at h; simp at h
        intro x hx
        rcases List.mem_cons.1 hx with rfl | hx
        · exact hb'
        · exact ih.1 hrest x hx
      · intro h
        have hrest : splitAtFirstBreak rest = none :=
          ih.2 fun x hx => h x (List.mem_cons_of_mem _ hx)
        rw [hrest]

theorem splitAtFirstBreak_some :
    ∀ (bs pre post : List Block), splitAtFirstBreak bs = some (pre, post) →
      bs = pre ++ Block.thematicBreak :: post ∧ ∀ b ∈ pre, isBreak b = false := by
  intro bs
  induction bs with
  | nil => intro pre post h; simp [splitAtFirstBreak] at h
  | cons b rest ih =>
    intro pre post h
    by_cases hb : isBreak b = true
    · have hbrk : b = .thematicBreak := by
        cases b with
        | thematicBreak => rfl
        | heading lvl cs => simp [isBreak] at hb
        | para cs => simp [isBreak] at hb
        | list items => simp [isBreak] at hb
        | other cs => simp [isBreak] at hb
      subst hbrk
      simp only [splitAtFirstBreak, Option.some_inj, Prod.mk.injEq] at h
      obtain ⟨h1, h2⟩ := h
      subst h1; subst h2
      simp
    · have hb' : isBreak b = false := by simpa using hb
      rw [splitAtFirstBreak_cons_nonbreak b rest hb'] at h
      cases hs : splitAtFirstBreak rest with
      | none => rw [hs] at h; simp at h
      | some p =>
        rcases p with ⟨p1, p2⟩
        rw [hs] at h
        simp only [Option.some_inj, Prod.mk.injEq] at h
        obtain ⟨h1, h2⟩ := h
        obtain ⟨e1, e2⟩ := ih p1 p2 hs
        subst h2
        subst h1
        constructor
        · simp [e1]
        · intro x hx
          rcases List.mem_cons.1 hx with rfl | hx
          · exact hb'
          · exact e2 x hx

/-- Claim C6: with at least one thematic break, the segmenter partitions the
top-level nodes into the three ordered slices — metadata before the first
break, ingredients between the first and second break (to end of input if no
second break), instructions after the second break — preserving input order
with no node duplicated or dropped (the concatenation equality), and a third
or later break is folded verbatim into the instruction slice, which the
transformer re-parents wholesale as ordinary content. -/
theorem sections_partition (bs : List Block) (h : bs.any isBreak = true) :
    ∃ m i t, sections bs = (m, i, t) ∧
      (∀ b ∈ m, isBreak b = false) ∧ (∀ b ∈ i, isBreak b = false) ∧
      ((bs = m ++ Block.thematicBreak :: i ∧ t = []) ∨
        bs = m ++ Block.thematicBreak :: i ++ Block.thematicBreak :: t) ∧
      (t ≠ [] → PChild.instructions t ∈ transformP bs) := by
  cases hs1 : splitAtFirstBreak bs with
  | none =>
    exfalso
    rw [splitAtFirstBreak_none] at hs1
    obtain ⟨x, hx, hbx⟩ := List.any_eq_true.1 h
    rw [hs1 x hx] at hbx
    exact Bool.false_ne_true hbx
  | some p =>
    rcases p with ⟨m, rest⟩
    obtain ⟨e1, e2⟩ := splitAtFirstBreak_some bs m rest hs1
    cases hs2 : splitAtFirstBreak rest with
    | none =>
      refine ⟨m, rest, [], by simp [sections, hs1, hs2], e2,
        (splitAtFirstBreak_none rest).1 hs2, Or.inl ⟨e1, rfl⟩, ?_⟩
      intro hne; exact absurd rfl hne
    | some q =>
      rcases q with ⟨i, t⟩
      obtain ⟨f1, f2⟩ := splitAtFirstBreak_some rest i t hs2
      refine ⟨m, i, t, by simp [sections, hs1, hs2], e2, f2, ?_, ?_⟩
      · right; rw [e1, f1]; simp
      · intro hne
        unfold transformP
        rw [show sections bs = (m, i, t) from by simp [sections, hs1, hs2]]
        have hemp : t.isEmpty = false := by
          cases t with
          | nil => exact absurd rfl hne
          | cons x xs => rfl
        simp [hemp, List.mem_append]

/-- A document with three thematic breaks. -/
def threeBreakDoc : List Block :=
  [.para [.text "a"], .thematicBreak, .list [[.text "x"]], .thematicBreak,
   .para [.text "b"], .thematicBreak, .para [.text "c"]]

/-- Witness for claim C6: the three-break document (the third break lands
inside the instruction slice). -/
theorem sections_partition_witness :
    threeBreakDoc.any isBreak = true ∧
    (∃ m i t, sections threeBreakDoc = (m, i, t) ∧
      (∀ b ∈ m, isBreak b = false) ∧ (∀ b ∈ i, isBreak b = false) ∧
      ((threeBreakDoc = m ++ Block.thematicBreak :: i ∧ t = []) ∨
        threeBreakDoc = m ++ Block.thematicBreak :: i ++ Block.thematicBreak :: t) ∧
      (t ≠ [] → PChild.instructions t ∈ transformP threeBreakDoc)) :=
  ⟨by decide, sections_partition threeBreakDoc (by decide)⟩

/-- Claim C9 (code evaluation): a document with zero thematic breaks is
processed silently and permissively — there is no strict mode, no
StructureError, and no warning mechanism anywhere in the code.  All nodes are
treated as metadata, and the transform is a total function that yields a
recipe with no ingredient and no instruction sections. -/
theorem zero_breaks_processed_permissively :
    (∀ bs : List Block, (∀ b ∈ bs, isBreak b = false) →
      sections bs = (bs, [], []) ∧ transformP bs = processMetadataGo bs) ∧
    transformP [Block.heading 1 [.text "T"], .para [.text "x"]] =
      [.title (.heading 1 [.text "T"]), .description [.para [.text "x"]]] := by
  constructor
  · intro bs h
    have hs : splitAtFirstBreak bs = none := (splitAtFirstBreak_none bs).2 h
    have hsec : sections bs = (bs, [], []) := by simp [sections, hs]
    refine ⟨hsec, ?_⟩
    unfold transformP
    rw [hsec]
    simp
  · rfl

/-- Witness for claim C9 at a concrete zero-break document. -/
theorem zero_breaks_processed_permissively_witness :
    (∀ b ∈ ([Block.heading 1 [.text "T"], .para [.text "x"]] : List Block),
      isBreak b = false) ∧
    sections [Block.heading 1 [.text "T"], .para [.text "x"]] =
      ([Block.heading 1 [.text "T"], .para [.text "x"]], [], []) ∧
    transformP [Block.heading 1 [.text "T"], .para [.text "x"]] =
      processMetadataGo [Block.heading 1 [.text "T"], .para [.text "x"]] :=
  ⟨by decide, zero_breaks_processed_permissively.1 _ (by decide)⟩

/-! ## String lemmas used by the round-trip proof -/

theorem str_append_empty (s : String) : s ++ "" = s := by
  cases s with
  | mk l =>
    show String.mk (l ++ []) = String.mk l
    rw [List.append_nil]

theorem extractTextList_text (s : String) : extractTextList [.text s] = s := by
  show s ++ "" = s
  exact str_append_empty s

theorem extractTextList_emph_text (lvl : Nat) (s : String) :
    extractTextList [.emph lvl [.text s]] = s := by
  show (s ++ "") ++ "" = s
  rw [str_append_empty, str_append_empty]

theorem dropWhile_dropWhile (p : Char → Bool) :
    ∀ l : List Char, (l.dropWhile p).dropWhile p = l.dropWhile p := by
  intro l
  induction l with
  | nil => rfl
  | cons c t ih =>
    by_cases h : p c
    · rw [List.dropWhile_cons_of_pos h, ih]
    · rw [List.dropWhile_cons_of_neg h, List.dropWhile_cons_of_neg h]

theorem dropWhile_head_false (p : Char → Bool) (l : List Char) :
    l.dropWhile p = [] ∨ ∃ c t, l.dropWhile p = c :: t ∧ p c = false := by
  induction l with
  | nil => exact Or.inl rfl
  | cons c t ih =>
    by_cases h : p c
    · rw [List.dropWhile_cons_of_pos h]; exact ih
    · rw [List.dropWhile_cons_of_neg h]
      exact Or.inr ⟨c, t, rfl, by simpa using h⟩

theorem dropWhile_of_prefix_trimmed (p : Char → Bool) (u w : List Char)
    (hu : u.dropWhile p = u) (hw : w <+: u) : w.dropWhile p = w := by
  cases w with
  | nil => rfl
  | cons c t =>
    obtain ⟨rest, hrest⟩ := hw
    have hc : p c = false := by
      rcases dropWhile_head_false p u with h | ⟨c', t', he, hc'⟩
      · rw [hu] at h; subst hrest; simp at h
      · rw [hu] at he
        subst hrest
        obtain ⟨e1, _⟩ := List.cons.injEq .. ▸ he
        rw [← e1] at hc'
        exact hc'
    rw [List.dropWhile_cons_of_neg (by simp [hc])]

theorem trimList_idem (l : List Char) : trimList (trimList l) = trimList l := by
  unfold trimList
  set u := l.dropWhile goIsSpace with hu
  have hu2 : u.dropWhile goIsSpace = u := dropWhile_dropWhile goIsSpace l
  set v := u.reverse.dropWhile goIsSpace with hv
  have hpref : v.reverse <+: u := by
    have : v <:+ u.reverse := List.dropWhile_suffix goIsSpace
    have := List.reverse_prefix.2 this
    simpa using this
  have h1 : v.reverse.dropWhile goIsSpace = v.reverse :=
    dropWhile_of_prefix_trimmed goIsSpace u v.reverse hu2 hpref
  rw [h1]
  have h2 : v.reverse.reverse.dropWhile goIsSpace = v := by
    rw [List.reverse_reverse]
    exact dropWhile_dropWhile goIsSpace u.reverse
  rw [h2]

theorem goTrimSpace_idem (s : String) : goTrimSpace (goTrimSpace s) = goTrimSpace s := by
  show String.mk (trimList (trimList s.data)) = String.mk (trimList s.data)
  rw [trimList_idem]

theorem goTrimSpace_space_append (n : String) :
    goTrimSpace (" " ++ n) = goTrimSpace n := by
  show String.mk (trimList (' ' :: n.data)) = String.mk (trimList n.data)
  unfold trimList
  rw [List.dropWhile_cons_of_pos (by decide)]

theorem join_single (n : String) : String.join [n] = n := by
  show "" ++ n = n
  cases n with
  | mk l => rfl

theorem intercalate_single (a : String) : String.intercalate " " [a] = a := rfl

/-! ## The renderer package's JSON export -/

/-- Go `strings.Split(s, ",")`: split at every comma. -/
def splitCommaList : List Char → List (List Char)
  | [] => [[]]
  | c :: rest =>
    if c = ',' then [] :: splitCommaList rest
    else consHead c (splitCommaList rest)

/-- The JSON renderer's tags/yields handling: split at every comma, trim each
part, skip empty parts. -/
def goSplitTrimFilter (s : String) : List String :=
  ((splitCommaList s.data).map fun l => goTrimSpace ⟨l⟩).filter fun x => x != ""

/-- The JSON object produced by the renderer package's `JSONRenderer`:
ingredients are `(amount, name)` pairs, groups are flat `(name, members)`. -/
structure PRecipeData where
  title : String
  description : String
  tags : List String
  yields : List String
  ingredients : List (String × String)
  groups : List (String × List (String × String))
  instructions : String
  deriving DecidableEq, Repr

/-- JSON renderer walk step for one child of the Ingredients container. -/
def jsonEntryStep (d : PRecipeData) : PEntry → PRecipeData
  | .ing a n => { d with ingredients := d.ingredients ++ [(a, n)] }
  | .group n ings => { d with groups := d.groups ++ [(n, ings)] }

/-- JSON renderer walk step for one child of the Recipe node: Title and
Description overwrite, Tags and Yields accumulate splits, ingredient entries
accumulate in walk order. -/
def jsonStep (d : PRecipeData) : PChild → PRecipeData
  | .title b => { d with title := extractTextB b }
  | .tags b => { d with tags := d.tags ++ goSplitTrimFilter (extractTextB b) }
  | .yields b => { d with yields := d.yields ++ goSplitTrimFilter (extractTextB b) }
  | .description ps =>
    { d with description :=
        String.intercalate "\n\n" (ps.map fun p => goTrimSpace (extractTextB p)) }
  | .ingredients es => es.foldl jsonEntryStep d
  | .instructions ns =>
    { d with instructions :=
        String.intercalate "\n\n" (ns.map fun p => goTrimSpace (extractTextB p)) }

/-- Full JSON export of a transformed recipe. -/
def jsonExport (cs : List PChild) : PRecipeData :=
  cs.foldl jsonStep ⟨"", "", [], [], [], [], ""⟩

/-! Projections of the walk, child by child. -/

/-- Title text contributed by one child. -/
def titleTextOf : PChild → List String
  | .title b => [extractTextB b]
  | _ => []

/-- Tags contributed by one child. -/
def tagsTextOf : PChild → List String
  | .tags b => goSplitTrimFilter (extractTextB b)
  | _ => []

/-- Yields contributed by one child. -/
def yieldsTextOf : PChild → List String
  | .yields b => goSplitTrimFilter (extractTextB b)
  | _ => []

/-- Bare ingredient pairs contributed by one child. -/
def ingPairsOf : PChild → List (String × String)
  | .ingredients es =>
    es.filterMap fun e => match e with | .ing a n => some (a, n) | _ => none
  | _ => []

/-- Groups contributed by one child. -/
def groupPairsOf : PChild → List (String × List (String × String))
  | .ingredients es =>
    es.filterMap fun e => match e with | .group n ings => some (n, ings) | _ => none
  | _ => []

/-- Last element of a string stream with a default. -/
def lastString : List String → String → String
  | [], dflt => dflt
  | t :: xs, _ => lastString xs t

theorem lastString_append (xs ys : List String) (d : String) :
    lastString (xs ++ ys) d = lastString ys (lastString xs d) := by
  induction xs generalizing d with
  | nil => rfl
  | cons t xs ih => exact ih t

theorem jsonEntryStep_fold (es : List PEntry) :
    ∀ d : PRecipeData,
      (es.foldl jsonEntryStep d).title = d.title ∧
      (es.foldl jsonEntryStep d).tags = d.tags ∧
      (es.foldl jsonEntryStep d).yields = d.yields ∧
      (es.foldl jsonEntryStep d).ingredients =
        d.ingredients ++ es.filterMap (fun e => match e with | .ing a n => some (a, n) | _ => none) ∧
      (es.foldl jsonEntryStep d).groups =
        d.groups ++ es.filterMap (fun e => match e with | .group n ings => some (n, ings) | _ => none) := by
  induction es with
  | nil => intro d; simp
  | cons e es ih =>
    intro d
    cases e with
    | ing a n =>
      obtain ⟨h1, h2, h3, h4, h5⟩ := ih { d with ingredients := d.ingredients ++ [(a, n)] }
      exact ⟨h1, h2, h3, by simp [jsonEntryStep, h4], by simp [jsonEntryStep, h5]⟩
    | group n ings =>
      obtain ⟨h1, h2, h3, h4, h5⟩ := ih { d with groups := d.groups ++ [(n, ings)] }
      exact ⟨h1, h2, h3, by simp [jsonEntryStep, h4], by simp [jsonEntryStep, h5]⟩

theorem jsonStep_fold (cs : List PChild) :
    ∀ d : PRecipeData,
      (cs.foldl jsonStep d).title = lastString (cs.flatMap titleTextOf) d.title ∧
      (cs.foldl jsonStep d).tags = d.tags ++ cs.flatMap tagsTextOf ∧
      (cs.foldl jsonStep d).yields = d.yields ++ cs.flatMap yieldsTextOf ∧
      (cs.foldl jsonStep d).ingredients = d.ingredients ++ cs.flatMap ingPairsOf ∧
      (cs.foldl jsonStep d).groups = d.groups ++ cs.flatMap groupPairsOf := by
  induction cs with
  | nil => intro d; simp [lastString]
  | cons c cs ih =>
    intro d
    cases c with
    | title b =>
      obtain ⟨h1, h2, h3, h4, h5⟩ := ih { d with title := extractTextB b }
      refine ⟨?_, ?_, ?_, ?_, ?_⟩ <;>
        simp [jsonStep, titleTextOf, tagsTextOf, yieldsTextOf, ingPairsOf, groupPairsOf,
          h1, h2, h3, h4, h5, lastString, List.flatMap]
    | tags b =>
      obtain ⟨h1, h2, h3, h4, h5⟩ :=
        ih { d with tags := d.tags ++ goSplitTrimFilter (extractTextB b) }
      refine ⟨?_, ?_, ?_, ?_, ?_⟩ <;>
        simp [jsonStep, titleTextOf, tagsTextOf, yieldsTextOf, ingPairsOf, groupPairsOf,
          h1, h2, h3, h4, h5, lastString, List.flatMap]
    | yields b =>
      obtain ⟨h1, h2, h3, h4, h5⟩ :=
        ih { d with yields := d.yields ++ goSplitTrimFilter (extractTextB b) }
      refine ⟨?_, ?_, ?_, ?_, ?_⟩ <;>
        simp [jsonStep, titleTextOf, tagsTextOf, yieldsTextOf, ingPairsOf, groupPairsOf,
          h1, h2, h3, h4, h5, lastString, List.flatMap]
    | description ps =>
      obtain ⟨h1, h2, h3, h4, h5⟩ :=
        ih { d with description :=
          String.intercalate "\n\n" (ps.map fun p => goTrimSpace (extractTextB p)) }
      refine ⟨?_, ?_, ?_, ?_, ?_⟩ <;>
        simp [jsonStep, titleTextOf, tagsTextOf, yieldsTextOf, ingPairsOf, groupPairsOf,
          h1, h2, h3, h4, h5, lastString, List.flatMap]
    | instructions ns =>
      obtain ⟨h1, h2, h3, h4, h5⟩ :=
        ih { d with instructions :=
          String.intercalate "\n\n" (ns.map fun p => goTrimSpace (extractTextB p)) }
      refine ⟨?_, ?_, ?_, ?_, ?_⟩ <;>
        simp [jsonStep, titleTextOf, tagsTextOf, yieldsTextOf, ingPairsOf, groupPairsOf,
          h1, h2, h3, h4, h5, lastString, List.flatMap]
    | ingredients es =>
      obtain ⟨g1, g2, g3, g4, g5⟩ := jsonEntryStep_fold es d
      obtain ⟨h1, h2, h3, h4, h5⟩ := ih (es.foldl jsonEntryStep d)
      refine ⟨?_, ?_, ?_, ?_, ?_⟩ <;>
        simp [jsonStep, titleTextOf, tagsTextOf, yieldsTextOf, ingPairsOf, groupPairsOf,
          h1, h2, h3, h4, h5, g1, g2, g3, g4, g5, lastString, List.flatMap]

/-! ## Source reconstruction (MarkdownRenderer) composed with re-parsing

`MarkdownRenderer` emits `# title`, the trimmed non-empty description
paragraphs, `*tags text*`, `**yields text**`, `---` followed by `- *amount*
name` lines and `## group` headings, and `---` followed by the trimmed
non-empty instruction texts as paragraphs.  The functions below model that
output together with its re-parse by the generic CommonMark parser — an
external collaborator that §6 of the spec deliberately leaves unspecified —
as block trees: each emitted literal text is recovered verbatim, consecutive
ingredient lines form one list, and the trailing space of an ingredient line
with an empty name is dropped. -/

/-- One `- *amount* name` line, read back as the item's inline content. -/
def renderItem (a n : String) : List Inline :=
  if a = "" then (if n = "" then [] else [.text n])
  else if n = "" then [.emph 1 [.text a]]
  else [.emph 1 [.text a], .text (" " ++ n)]

/-- Chunk consecutive bare ingredients (consecutive `- ` lines form a single
markdown list). -/
def chunkEntries :
    List PEntry → List (List (String × String) ⊕ (String × List (String × String)))
  | [] => []
  | .ing a n :: rest =>
    match chunkEntries rest with
    | .inl run :: cs => .inl ((a, n) :: run) :: cs
    | cs => .inl [(a, n)] :: cs
  | .group n ings :: rest => .inr (n, ings) :: chunkEntries rest

/-- Blocks of one rendered group: its `##` heading, then its items' list. -/
def groupBlocks (g : String × List (String × String)) : List Block :=
  .heading 2 [.text g.1] ::
    (if g.2.isEmpty then [] else [.list (g.2.map fun p => renderItem p.1 p.2)])

/-- Blocks of the rendered ingredient entries. -/
def entryBlocks (es : List PEntry) : List Block :=
  (chunkEntries es).flatMap fun c =>
    match c with
    | .inl run => [.list (run.map fun p => renderItem p.1 p.2)]
    | .inr g => groupBlocks g

/-- Paragraph blocks of rendered description/instruction children: each
child's trimmed flattened text, empty ones skipped. -/
def trimmedParas (ps : List Block) : List Block :=
  ps.filterMap fun p =>
    let t := goTrimSpace (extractTextB p)
    if t = "" then none else some (.para [.text t])

/-- Modelled from the spec: the blocks that one recipe child's rendered
markdown re-parses to (the CommonMark parser is the unspecified external
collaborator; it is modelled as recovering each emitted literal verbatim). -/
def mdChildBlocks : PChild → List Block
  | .title b => [.heading 1 [.text (extractTextB b)]]
  | .tags b => [.para [.emph 1 [.text (extractTextB b)]]]
  | .yields b => [.para [.emph 2 [.text (extractTextB b)]]]
  | .description ps => trimmedParas ps
  | .ingredients es => .thematicBreak :: entryBlocks es
  | .instructions ns => .thematicBreak :: trimmedParas ns

/-- Modelled from the spec: source reconstruction followed by re-parsing, as
a function from recipe children to the re-parsed block sequence. -/
def mdRenderBlocks (cs : List PChild) : List Block := cs.flatMap mdChildBlocks

/-- Round trip of one ingredient line: parsing the rendered line recovers the
(already trimmed) amount and name. -/
theorem parseIngredientContent_renderItem (a n : String)
    (ha : goTrimSpace a = a) (hn : goTrimSpace n = n) :
    parseIngredientContent (renderItem a n) = (a, n) := by
  by_cases ha0 : a = ""
  · subst ha0
    by_cases hn0 : n = ""
    · subst hn0; rfl
    · simp only [renderItem, if_pos rfl, if_neg hn0]
      show (goTrimSpace (String.intercalate " " []),
        goTrimSpace (String.join ([] ++ [n]))) = ("", n)
      rw [List.nil_append, join_single]
      exact Prod.ext rfl hn
  · by_cases hn0 : n = ""
    · subst hn0
      simp only [renderItem, if_neg ha0, if_pos rfl]
      show (goTrimSpace (String.intercalate " " ([] ++ [extractTextList [.text a]])),
        goTrimSpace (String.join [])) = (a, "")
      rw [List.nil_append, extractTextList_text, intercalate_single]
      exact Prod.ext ha rfl
    · simp only [renderItem, if_neg ha0, if_neg hn0]
      show (goTrimSpace (String.intercalate " " ([] ++ [extractTextList [.text a]])),
        goTrimSpace (String.join ([] ++ [" " ++ n]))) = (a, n)
      rw [List.nil_append, List.nil_append, extractTextList_text, intercalate_single,
        join_single, goTrimSpace_space_append]
      exact Prod.ext ha hn

/-- `.ing` entry constructor from a pair. -/
def mkIng (p : String × String) : PEntry := .ing p.1 p.2

/-- `.group` entry constructor from a pair. -/
def mkGrp (g : String × List (String × String)) : PEntry := .group g.1 g.2

/-- The parsed `(amount, name)` pair of one list item. -/
def picPair (i : List Inline) : String × String :=
  ((parseIngredientContent i).1, (parseIngredientContent i).2)

theorem picPair_eq : picPair = parseIngredientContent := rfl

/-- Bare pairs of the ingredient slice: items of lists before the first
heading. -/
def barePairs : List Block → List (String × String)
  | [] => []
  | .list items :: rest => items.map picPair ++ barePairs rest
  | .heading _ _ :: _ => []
  | _ :: rest => barePairs rest

/-- Groups accumulated from the first heading onward: each heading closes the
current group, each list extends it. -/
def groupsFrom (n : String) (ings : List (String × String)) :
    List Block → List (String × List (String × String))
  | [] => [(n, ings)]
  | .heading _ cs :: rest => (n, ings) :: groupsFrom (extractTextList cs) [] rest
  | .list items :: rest => groupsFrom n (ings ++ items.map picPair) rest
  | _ :: rest => groupsFrom n ings rest

/-- Groups of the ingredient slice. -/
def sliceGroups : List Block → List (String × List (String × String))
  | [] => []
  | .heading _ cs :: rest => groupsFrom (extractTextList cs) [] rest
  | _ :: rest => sliceGroups rest

theorem processIngredientsAux_some (ns : List Block) :
    ∀ (acc : List PEntry) (n : String) (ings : List (String × String)),
      processIngredientsAux ns acc (some (n, ings)) =
        acc ++ (groupsFrom n ings ns).map mkGrp := by
  induction ns with
  | nil => intro acc n ings; simp [processIngredientsAux, groupsFrom, mkGrp]
  | cons b rest ih =>
    intro acc n ings
    cases b with
    | heading lvl cs =>
      rw [show processIngredientsAux (Block.heading lvl cs :: rest) acc (some (n, ings)) =
        processIngredientsAux rest (acc ++ [.group n ings]) (some (extractTextList cs, [])) from rfl]
      rw [ih]
      simp [groupsFrom, mkGrp]
    | list items =>
      rw [show processIngredientsAux (Block.list items :: rest) acc (some (n, ings)) =
        processIngredientsAux rest acc
          (some (n, ings ++ items.map fun i =>
            ((parseIngredientContent i).1, (parseIngredientContent i).2))) from rfl]
      rw [ih]
      simp [groupsFrom, picPair_eq]
    | para cs => rw [show processIngredientsAux (Block.para cs :: rest) acc (some (n, ings)) =
        processIngredientsAux rest acc (some (n, ings)) from rfl, ih]; rfl
    | thematicBreak => rw [show processIngredientsAux (Block.thematicBreak :: rest) acc (some (n, ings)) =
        processIngredientsAux rest acc (some (n, ings)) from rfl, ih]; rfl
    | other cs => rw [show processIngredientsAux (Block.other cs :: rest) acc (some (n, ings)) =
        processIngredientsAux rest acc (some (n, ings)) from rfl, ih]; rfl

theorem processIngredientsAux_none (ns : List Block) :
    ∀ acc : List PEntry,
      processIngredientsAux ns acc none =
        acc ++ (barePairs ns).map mkIng ++ (sliceGroups ns).map mkGrp := by
  induction ns with
  | nil => intro acc; simp [processIngredientsAux, barePairs, sliceGroups]
  | cons b rest ih =>
    intro acc
    cases b with
    | heading lvl cs =>
      rw [show processIngredientsAux (Block.heading lvl cs :: rest) acc none =
        processIngredientsAux rest acc (some (extractTextList cs, [])) from rfl]
      rw [processIngredientsAux_some]
      simp [barePairs, sliceGroups]
    | list items =>
      rw [show processIngredientsAux (Block.list items :: rest) acc none =
        processIngredientsAux rest
          (acc ++ items.map fun i =>
            PEntry.ing (parseIngredientContent i).1 (parseIngredientContent i).2) none from rfl]
      rw [ih]
      simp [barePairs, sliceGroups, picPair_eq, mkIng, List.map_map, Function.comp]
    | para cs =>
      rw [show processIngredientsAux (Block.para cs :: rest) acc none =
        processIngredientsAux rest acc none from rfl, ih]
      rfl
    | thematicBreak =>
      rw [show processIngredientsAux (Block.thematicBreak :: rest) acc none =
        processIngredientsAux rest acc none from rfl, ih]
      rfl
    | other cs =>
      rw [show processIngredientsAux (Block.other cs :: rest) acc none =
        processIngredientsAux rest acc none from rfl, ih]
      rfl

/-- A pair whose two components are fixed points of trimming. -/
def trimFixed (p : String × String) : Prop :=
  goTrimSpace p.1 = p.1 ∧ goTrimSpace p.2 = p.2

theorem picPair_trimFixed (i : List Inline) : trimFixed (picPair i) :=
  ⟨goTrimSpace_idem _, goTrimSpace_idem _⟩

theorem barePairs_trimFixed : ∀ ns : List Block, ∀ p ∈ barePairs ns, trimFixed p := by
  intro ns
  induction ns with
  | nil => intro p hp; simp [barePairs] at hp
  | cons b rest ih =>
    intro p hp
    cases b with
    | list items =>
      rw [barePairs] at hp
      rcases List.mem_append.1 hp with hp | hp
      · obtain ⟨i, _, hi⟩ := List.mem_map.1 hp
        rw [← hi]; exact picPair_trimFixed i
      · exact ih p hp
    | heading lvl cs => rw [barePairs] at hp; simp at hp
    | para cs => exact ih p hp
    | thematicBreak => exact ih p hp
    | other cs => exact ih p hp

theorem groupsFrom_trimFixed :
    ∀ (ns : List Block) (n : String) (ings : List (String × String)),
      (∀ p ∈ ings, trimFixed p) →
      ∀ g ∈ groupsFrom n ings ns, ∀ p ∈ g.2, trimFixed p := by
  intro ns
  induction ns with
  | nil =>
    intro n ings hi g hg p hp
    rw [groupsFrom] at hg
    rcases List.mem_singleton.1 hg with rfl
    exact hi p hp
  | cons b rest ih =>
    intro n ings hi g hg p hp
    cases b with
    | heading lvl cs =>
      rw [groupsFrom] at hg
      rcases List.mem_cons.1 hg with rfl | hg
      · exact hi p hp
      · exact ih (extractTextList cs) [] (by simp) g hg p hp
    | list items =>
      rw [groupsFrom] at hg
      refine ih n _ ?_ g hg p hp
      intro q hq
      rcases List.mem_append.1 hq with hq | hq
      · exact hi q hq
      · obtain ⟨i, _, hi'⟩ := List.mem_map.1 hq
        rw [← hi']; exact picPair_trimFixed i
    | para cs => exact ih n ings hi g hg p hp
    | thematicBreak => exact ih n ings hi g hg p hp
    | other cs => exact ih n ings hi g hg p hp

theorem sliceGroups_trimFixed :
    ∀ ns : List Block, ∀ g ∈ sliceGroups ns, ∀ p ∈ g.2, trimFixed p := by
  intro ns
  induction ns with
  | nil => intro g hg; simp [sliceGroups] at hg
  | cons b rest ih =>
    intro g hg
    cases b with
    | heading lvl cs =>
      rw [sliceGroups] at hg
      exact groupsFrom_trimFixed rest (extractTextList cs) [] (by simp) g hg
    | list items => exact ih g hg
    | para cs => exact ih g hg
    | thematicBreak => exact ih g hg
    | other cs => exact ih g hg

theorem chunkEntries_groups :
    ∀ grps : List (String × List (String × String)),
      chunkEntries (grps.map mkGrp) = grps.map Sum.inr := by
  intro grps
  induction grps with
  | nil => rfl
  | cons g rest ih =>
    show chunkEntries (mkGrp g :: rest.map mkGrp) = Sum.inr g :: rest.map Sum.inr
    rw [show chunkEntries (mkGrp g :: rest.map mkGrp) =
      Sum.inr (g.1, g.2) :: chunkEntries (rest.map mkGrp) from rfl, ih]

theorem chunkEntries_canonical :
    ∀ (bares : List (String × String)) (grps : List (String × List (String × String))),
      bares ≠ [] →
      chunkEntries (bares.map mkIng ++ grps.map mkGrp) =
        .inl bares :: grps.map Sum.inr := by
  intro bares
  induction bares with
  | nil => intro grps h; exact absurd rfl h
  | cons b bs ih =>
    intro grps _
    cases bs with
    | nil =>
      show chunkEntries (mkIng b :: grps.map mkGrp) = .inl [b] :: grps.map Sum.inr
      rw [show chunkEntries (mkIng b :: grps.map mkGrp) =
        (match chunkEntries (grps.map mkGrp) with
          | .inl run :: cs => .inl ((b.1, b.2) :: run) :: cs
          | cs => .inl [(b.1, b.2)] :: cs) from rfl]
      rw [chunkEntries_groups]
      cases grps with
      | nil => rfl
      | cons g rest => rfl
    | cons b' bs' =>
      have ihr := ih grps (by simp)
      show chunkEntries (mkIng b :: (b' :: bs').map mkIng ++ grps.map mkGrp) =
        .inl (b :: b' :: bs') :: grps.map Sum.inr
      rw [show chunkEntries (mkIng b :: (b' :: bs').map mkIng ++ grps.map mkGrp) =
        (match chunkEntries ((b' :: bs').map mkIng ++ grps.map mkGrp) with
          | .inl run :: cs => .inl ((b.1, b.2) :: run) :: cs
          | cs => .inl [(b.1, b.2)] :: cs) from rfl]
      rw [ihr]

theorem map_parse_render (run : List (String × String))
    (h : ∀ p ∈ run, trimFixed p) :
    (run.map fun p => renderItem p.1 p.2).map
        (fun i => PEntry.ing (parseIngredientContent i).1 (parseIngredientContent i).2) =
      run.map mkIng := by
  rw [List.map_map]
  refine List.map_congr_left ?_
  intro p hp
  obtain ⟨h1, h2⟩ := h p hp
  show PEntry.ing (parseIngredientContent (renderItem p.1 p.2)).1
      (parseIngredientContent (renderItem p.1 p.2)).2 = mkIng p
  rw [parseIngredientContent_renderItem p.1 p.2 h1 h2]
  rfl

theorem map_parse_render_pairs (run : List (String × String))
    (h : ∀ p ∈ run, trimFixed p) :
    (run.map fun p => renderItem p.1 p.2).map
        (fun i => ((parseIngredientContent i).1, (parseIngredientContent i).2)) =
      run := by
  rw [List.map_map]
  have : run.map ((fun i => ((parseIngredientContent i).1, (parseIngredientContent i).2)) ∘
      fun p => renderItem p.1 p.2) = run.map id := by
    refine List.map_congr_left ?_
    intro p hp
    obtain ⟨h1, h2⟩ := h p hp
    show ((parseIngredientContent (renderItem p.1 p.2)).1,
      (parseIngredientContent (renderItem p.1 p.2)).2) = id p
    rw [parseIngredientContent_renderItem p.1 p.2 h1 h2]
    rfl
  rw [this, List.map_id]

theorem procGroupBlocks_some :
    ∀ grps : List (String × List (String × String)),
      (∀ g ∈ grps, ∀ p ∈ g.2, trimFixed p) →
      ∀ (acc : List PEntry) (n : String) (ings : List (String × String)),
        processIngredientsAux (grps.flatMap groupBlocks) acc (some (n, ings)) =
          acc ++ [.group n ings] ++ grps.map mkGrp := by
  intro grps
  induction grps with
  | nil =>
    intro _ acc n ings
    show processIngredientsAux [] acc (some (n, ings)) = acc ++ [.group n ings] ++ []
    rw [List.append_nil]
    rfl
  | cons g rest ih =>
    intro hg acc n ings
    have hgblocks : (g :: rest).flatMap groupBlocks =
        Block.heading 2 [.text g.1] ::
          ((if g.2.isEmpty then [] else
            [Block.list (g.2.map fun p => renderItem p.1 p.2)]) ++
            rest.flatMap groupBlocks) := by
      simp [groupBlocks, List.flatMap]
    rw [hgblocks]
    rw [show processIngredientsAux
        (Block.heading 2 [.text g.1] ::
          ((if g.2.isEmpty then [] else
            [Block.list (g.2.map fun p => renderItem p.1 p.2)]) ++ rest.flatMap groupBlocks))
        acc (some (n, ings)) =
      processIngredientsAux
        ((if g.2.isEmpty then [] else
          [Block.list (g.2.map fun p => renderItem p.1 p.2)]) ++ rest.flatMap groupBlocks)
        (acc ++ [.group n ings]) (some (extractTextList [.text g.1], [])) from rfl]
    rw [extractTextList_text]
    by_cases hemp : g.2.isEmpty
    · rw [if_pos hemp, List.nil_append]
      rw [ih (fun x hx => hg x (List.mem_cons_of_mem g hx)) _ g.1 []]
      have : g.2 = [] := List.isEmpty_iff.1 hemp
      simp [mkGrp, this, List.append_assoc]
    · rw [if_neg hemp, List.singleton_append]
      rw [show processIngredientsAux
          (Block.list (g.2.map fun p => renderItem p.1 p.2) :: rest.flatMap groupBlocks)
          (acc ++ [.group n ings]) (some (g.1, [])) =
        processIngredientsAux (rest.flatMap groupBlocks)
          (acc ++ [.group n ings])
          (some (g.1, [] ++ (g.2.map fun p => renderItem p.1 p.2).map
            (fun i => ((parseIngredientContent i).1, (parseIngredientContent i).2)))) from rfl]
      rw [List.nil_append, map_parse_render_pairs g.2 (hg g (List.mem_cons_self g rest))]
      rw [ih (fun x hx => hg x (List.mem_cons_of_mem g hx)) _ g.1 g.2]
      simp [mkGrp, List.append_assoc]

theorem procGroupBlocks_none :
    ∀ grps : List (String × List (String × String)),
      (∀ g ∈ grps, ∀ p ∈ g.2, trimFixed p) →
      ∀ acc : List PEntry,
        processIngredientsAux (grps.flatMap groupBlocks) acc none =
          acc ++ grps.map mkGrp := by
  intro grps hg acc
  cases grps with
  | nil => simp [List.flatMap, processIngredientsAux]
  | cons g rest =>
    have hgblocks : (g :: rest).flatMap groupBlocks =
        Block.heading 2 [.text g.1] ::
          ((if g.2.isEmpty then [] else
            [Block.list (g.2.map fun p => renderItem p.1 p.2)]) ++
            rest.flatMap groupBlocks) := by
      simp [groupBlocks, List.flatMap]
    rw [hgblocks]
    rw [show processIngredientsAux
        (Block.heading 2 [.text g.1] ::
          ((if g.2.isEmpty then [] else
            [Block.list (g.2.map fun p => renderItem p.1 p.2)]) ++ rest.flatMap groupBlocks))
        acc none =
      processIngredientsAux
        ((if g.2.isEmpty then [] else
          [Block.list (g.2.map fun p => renderItem p.1 p.2)]) ++ rest.flatMap groupBlocks)
        acc (some (extractTextList [.text g.1], [])) from rfl]
    rw [extractTextList_text]
    by_cases hemp : g.2.isEmpty
    · rw [if_pos hemp, List.nil_append]
      rw [procGroupBlocks_some rest (fun x hx => hg x (List.mem_cons_of_mem g hx)) _ g.1 []]
      have : g.2 = [] := List.isEmpty_iff.1 hemp
      simp [mkGrp, this, List.append_assoc]
    · rw [if_neg hemp, List.singleton_append]
      rw [show processIngredientsAux
          (Block.list (g.2.map fun p => renderItem p.1 p.2) :: rest.flatMap groupBlocks)
          acc (some (g.1, [])) =
        processIngredientsAux (rest.flatMap groupBlocks) acc
          (some (g.1, [] ++ (g.2.map fun p => renderItem p.1 p.2).map
            (fun i => ((parseIngredientContent i).1, (parseIngredientContent i).2)))) from rfl]
      rw [List.nil_append, map_parse_render_pairs g.2 (hg g (List.mem_cons_self g rest))]
      rw [procGroupBlocks_some rest (fun x hx => hg x (List.mem_cons_of_mem g hx)) _ g.1 g.2]
      simp [mkGrp, List.append_assoc]

theorem entryBlocks_roundtrip
    (bares : List (String × String)) (grps : List (String × List (String × String)))
    (hb : ∀ p ∈ bares, trimFixed p) (hg : ∀ g ∈ grps, ∀ p ∈ g.2, trimFixed p) :
    processIngredientsP (entryBlocks (bares.map mkIng ++ grps.map mkGrp)) =
      bares.map mkIng ++ grps.map mkGrp := by
  cases bares with
  | nil =>
    rw [List.map_nil, List.nil_append]
    have hch : entryBlocks (grps.map mkGrp) = grps.flatMap groupBlocks := by
      rw [entryBlocks, chunkEntries_groups, List.flatMap_map]
    rw [hch, processIngredientsP, procGroupBlocks_none grps hg]
    rfl
  | cons b bs =>
    have hch : chunkEntries ((b :: bs).map mkIng ++ grps.map mkGrp) =
        .inl (b :: bs) :: grps.map Sum.inr :=
      chunkEntries_canonical (b :: bs) grps (by simp)
    rw [entryBlocks, hch]
    have hfm : (Sum.inl (b :: bs) :: grps.map Sum.inr).flatMap
        (fun c => match c with
          | .inl run => [Block.list (run.map fun p => renderItem p.1 p.2)]
          | .inr g => groupBlocks g) =
        Block.list ((b :: bs).map fun p => renderItem p.1 p.2) ::
          grps.flatMap groupBlocks := by
      simp only [List.flatMap, List.map_cons, List.flatten_cons, List.map_map,
        List.singleton_append]
      rfl
    rw [hfm, processIngredientsP]
    rw [show processIngredientsAux
        (Block.list ((b :: bs).map fun p => renderItem p.1 p.2) :: grps.flatMap groupBlocks)
        [] none =
      processIngredientsAux (grps.flatMap groupBlocks)
        ([] ++ ((b :: bs).map fun p => renderItem p.1 p.2).map
          (fun i => PEntry.ing (parseIngredientContent i).1 (parseIngredientContent i).2))
        none from rfl]
    rw [List.nil_append, map_parse_render (b :: bs) hb]
    rw [procGroupBlocks_none grps hg]

/-- Title text a metadata block contributes when classified. -/
def blockTitleProj : Block → List String
  | .heading lvl cs => if lvl = 1 then [extractTextList cs] else []
  | _ => []

/-- Tags a metadata block contributes when classified. -/
def blockTagsProj : Block → List String
  | .para cs => if isFullyItalic cs then goSplitTrimFilter (extractTextList cs) else []
  | _ => []

/-- Yields a metadata block contributes when classified. -/
def blockYieldsProj : Block → List String
  | .para cs =>
    if isFullyItalic cs then []
    else if isFullyBold cs then goSplitTrimFilter (extractTextList cs) else []
  | _ => []

theorem flatMap_congr_mem {α β : Type} (f g : α → List β) :
    ∀ l : List α, (∀ a ∈ l, f a = g a) → l.flatMap f = l.flatMap g := by
  intro l
  induction l with
  | nil => intro _; rfl
  | cons a t ih =>
    intro h
    rw [List.flatMap_cons, List.flatMap_cons, h a (List.mem_cons_self a t),
      ih fun x hx => h x (List.mem_cons_of_mem a hx)]

theorem addDescription_proj {α : Type} (F : PChild → List α)
    (hdesc : ∀ ps, F (.description ps) = []) (acc : List PChild) (p : Block) :
    (addDescription acc p).flatMap F = acc.flatMap F := by
  unfold addDescription
  split
  · rw [List.flatMap_map]
    refine flatMap_congr_mem _ _ acc fun c _ => ?_
    cases c with
    | description ps =>
      show F (.description (ps ++ [p])) = F (.description ps)
      rw [hdesc, hdesc]
    | title b => rfl
    | tags b => rfl
    | yields b => rfl
    | ingredients es => rfl
    | instructions ns => rfl
  · rw [List.flatMap_append]
    simp [hdesc]

theorem metaStep_fold (ns : List Block) :
    ∀ acc : List PChild,
      (ns.foldl metaStep acc).flatMap titleTextOf
          = acc.flatMap titleTextOf ++ ns.flatMap blockTitleProj ∧
      (ns.foldl metaStep acc).flatMap tagsTextOf
          = acc.flatMap tagsTextOf ++ ns.flatMap blockTagsProj ∧
      (ns.foldl metaStep acc).flatMap yieldsTextOf
          = acc.flatMap yieldsTextOf ++ ns.flatMap blockYieldsProj ∧
      (ns.foldl metaStep acc).flatMap ingPairsOf = acc.flatMap ingPairsOf ∧
      (ns.foldl metaStep acc).flatMap groupPairsOf = acc.flatMap groupPairsOf := by
  induction ns with
  | nil => intro acc; simp
  | cons b rest ih =>
    intro acc
    rw [List.foldl_cons]
    obtain ⟨h1, h2, h3, h4, h5⟩ := ih (metaStep acc b)
    rw [h1, h2, h3, h4, h5]
    cases b with
    | heading lvl cs =>
      by_cases hl : lvl = 1
      · subst hl
        refine ⟨?_, ?_, ?_, ?_, ?_⟩ <;>
          simp [metaStep, blockTitleProj, blockTagsProj, blockYieldsProj,
            titleTextOf, tagsTextOf, yieldsTextOf, ingPairsOf, groupPairsOf,
            extractTextB, List.flatMap_append]
      · refine ⟨?_, ?_, ?_, ?_, ?_⟩ <;>
          simp [metaStep, hl, blockTitleProj, blockTagsProj, blockYieldsProj]
    | para cs =>
      by_cases hit : isFullyItalic cs
      · refine ⟨?_, ?_, ?_, ?_, ?_⟩ <;>
          simp [metaStep, hit, blockTitleProj, blockTagsProj, blockYieldsProj,
            titleTextOf, tagsTextOf, yieldsTextOf, ingPairsOf, groupPairsOf,
            extractTextB, List.flatMap_append]
      · by_cases hbd : isFullyBold cs
        · refine ⟨?_, ?_, ?_, ?_, ?_⟩ <;>
            simp [metaStep, hit, hbd, blockTitleProj, blockTagsProj, blockYieldsProj,
              titleTextOf, tagsTextOf, yieldsTextOf, ingPairsOf, groupPairsOf,
              extractTextB, List.flatMap_append]
        · have e1 := addDescription_proj titleTextOf (fun _ => rfl) acc (.para cs)
          have e2 := addDescription_proj tagsTextOf (fun _ => rfl) acc (.para cs)
          have e3 := addDescription_proj yieldsTextOf (fun _ => rfl) acc (.para cs)
          have e4 := addDescription_proj ingPairsOf (fun _ => rfl) acc (.para cs)
          have e5 := addDescription_proj groupPairsOf (fun _ => rfl) acc (.para cs)
          refine ⟨?_, ?_, ?_, ?_, ?_⟩ <;>
            simp [metaStep, hit, hbd, e1, e2, e3, e4, e5,
              blockTitleProj, blockTagsProj, blockYieldsProj]
    | list items =>
      refine ⟨?_, ?_, ?_, ?_, ?_⟩ <;>
        simp [metaStep, blockTitleProj, blockTagsProj, blockYieldsProj]
    | thematicBreak =>
      refine ⟨?_, ?_, ?_, ?_, ?_⟩ <;>
        simp [metaStep, blockTitleProj, blockTagsProj, blockYieldsProj]
    | other cs =>
      refine ⟨?_, ?_, ?_, ?_, ?_⟩ <;>
        simp [metaStep, blockTitleProj, blockTagsProj, blockYieldsProj]

theorem flatMap_assoc' {α β γ : Type} (l : List α) (f : α → List β) (g : β → List γ) :
    (l.flatMap f).flatMap g = l.flatMap fun a => (f a).flatMap g := by
  induction l with
  | nil => rfl
  | cons a t ih => simp only [List.flatMap_cons, List.flatMap_append, ih]

theorem flatMap_nil_of {α β : Type} (l : List α) (f : α → List β)
    (h : ∀ a ∈ l, f a = []) : l.flatMap f = [] := by
  induction l with
  | nil => rfl
  | cons a t ih =>
    rw [List.flatMap_cons, h a (List.mem_cons_self a t),
      ih fun x hx => h x (List.mem_cons_of_mem a hx)]
    rfl

/-- A metadata child of the Recipe node (not an ingredient or instruction
container). -/
def isMetaChild : PChild → Bool
  | .ingredients _ => false
  | .instructions _ => false
  | _ => true

theorem addDescription_meta (acc : List PChild) (p : Block)
    (h : ∀ c ∈ acc, isMetaChild c = true) :
    ∀ c ∈ addDescription acc p, isMetaChild c = true := by
  intro c hc
  rw [addDescription] at hc
  split at hc
  · obtain ⟨c0, hc0, hc0e⟩ := List.mem_map.1 hc
    subst hc0e
    cases c0 with
    | title b => rfl
    | tags b => rfl
    | yields b => rfl
    | description ps => rfl
    | ingredients es => exact h _ hc0
    | instructions ns => exact h _ hc0
  · rcases List.mem_append.1 hc with hc | hc
    · exact h c hc
    · rcases List.mem_singleton.1 hc with rfl
      rfl

theorem processMetadataGo_meta (ns : List Block) :
    ∀ acc : List PChild, (∀ c ∈ acc, isMetaChild c = true) →
      ∀ c ∈ ns.foldl metaStep acc, isMetaChild c = true := by
  induction ns with
  | nil => intro acc h; exact h
  | cons b rest ih =>
    intro acc h
    rw [List.foldl_cons]
    refine ih (metaStep acc b) ?_
    intro c hc
    cases b with
    | heading lvl cs =>
      rw [metaStep] at hc
      split at hc
      · rcases List.mem_append.1 hc with hc | hc
        · exact h c hc
        · rcases List.mem_singleton.1 hc with rfl; rfl
      · exact h c hc
    | para cs =>
      rw [metaStep] at hc
      split at hc
      · rcases List.mem_append.1 hc with hc | hc
        · exact h c hc
        · rcases List.mem_singleton.1 hc with rfl; rfl
      · split at hc
        · rcases List.mem_append.1 hc with hc | hc
          · exact h c hc
          · rcases List.mem_singleton.1 hc with rfl; rfl
        · exact addDescription_meta acc _ h c hc
    | list items => exact h c hc
    | thematicBreak => exact h c hc
    | other cs => exact h c hc

theorem trimmedParas_shape (ps : List Block) :
    ∀ p ∈ trimmedParas ps, ∃ t, p = .para [.text t] := by
  induction ps with
  | nil => intro p hp; simp [trimmedParas] at hp
  | cons q rest ih =>
    intro p hp
    rw [trimmedParas, List.filterMap_cons] at hp
    by_cases h0 : goTrimSpace (extractTextB q) = ""
    · simp only [h0, if_pos] at hp
      exact ih p hp
    · simp only [h0, if_neg, ite_false] at hp
      rcases List.mem_cons.1 hp with rfl | hp
      · exact ⟨goTrimSpace (extractTextB q), rfl⟩
      · exact ih p hp

theorem trimmedParas_proj {α : Type} (F : Block → List α)
    (hF : ∀ t, F (.para [.text t]) = []) (ps : List Block) :
    (trimmedParas ps).flatMap F = [] := by
  refine flatMap_nil_of _ _ ?_
  intro p hp
  obtain ⟨t, rfl⟩ := trimmedParas_shape ps p hp
  exact hF t

theorem mdChild_proj (c : PChild) (hc : isMetaChild c = true) :
    (mdChildBlocks c).flatMap blockTitleProj = titleTextOf c ∧
    (mdChildBlocks c).flatMap blockTagsProj = tagsTextOf c ∧
    (mdChildBlocks c).flatMap blockYieldsProj = yieldsTextOf c ∧
    ingPairsOf c = [] ∧ groupPairsOf c = [] := by
  cases c with
  | title b =>
    refine ⟨?_, ?_, ?_, rfl, rfl⟩ <;>
      simp [mdChildBlocks, blockTitleProj, blockTagsProj, blockYieldsProj,
        titleTextOf, tagsTextOf, yieldsTextOf, extractTextList_text]
  | tags b =>
    refine ⟨?_, ?_, ?_, rfl, rfl⟩ <;>
      simp [mdChildBlocks, blockTitleProj, blockTagsProj, blockYieldsProj,
        titleTextOf, tagsTextOf, yieldsTextOf, isFullyItalic, isFullyBold,
        extractTextList_emph_text, extractTextB]
  | yields b =>
    refine ⟨?_, ?_, ?_, rfl, rfl⟩ <;>
      simp [mdChildBlocks, blockTitleProj, blockTagsProj, blockYieldsProj,
        titleTextOf, tagsTextOf, yieldsTextOf, isFullyItalic, isFullyBold,
        extractTextList_emph_text, extractTextB]
  | description ps =>
    exact ⟨trimmedParas_proj _ (fun t => rfl) ps,
      trimmedParas_proj _ (fun t => by simp [blockTagsProj, isFullyItalic]) ps,
      trimmedParas_proj _ (fun t => by simp [blockYieldsProj, isFullyItalic, isFullyBold]) ps,
      rfl, rfl⟩
  | ingredients es => simp [isMetaChild] at hc
  | instructions ns => simp [isMetaChild] at hc

theorem mdChild_noBreak (c : PChild) (hc : isMetaChild c = true) :
    ∀ b ∈ mdChildBlocks c, isBreak b = false := by
  cases c with
  | title b0 => intro b hb; rcases List.mem_singleton.1 hb with rfl; rfl
  | tags b0 => intro b hb; rcases List.mem_singleton.1 hb with rfl; rfl
  | yields b0 => intro b hb; rcases List.mem_singleton.1 hb with rfl; rfl
  | description ps =>
    intro b hb
    obtain ⟨t, rfl⟩ := trimmedParas_shape ps b hb
    rfl
  | ingredients es => simp [isMetaChild] at hc
  | instructions ns => simp [isMetaChild] at hc

theorem entryBlocks_noBreak (es : List PEntry) :
    ∀ b ∈ entryBlocks es, isBreak b = false := by
  intro b hb
  rw [entryBlocks] at hb
  obtain ⟨c, _, hbc⟩ := List.mem_flatMap.1 hb
  cases c with
  | inl run =>
    rcases List.mem_singleton.1 hbc with rfl
    rfl
  | inr g =>
    have hbc' : b ∈ groupBlocks g := hbc
    rw [groupBlocks] at hbc'
    rcases List.mem_cons.1 hbc' with rfl | hbc'
    · rfl
    · split at hbc'
      · simp at hbc'
      · rcases List.mem_singleton.1 hbc' with rfl
        rfl

theorem splitAtFirstBreak_append_break :
    ∀ xs : List Block, (∀ b ∈ xs, isBreak b = false) →
      ∀ ys, splitAtFirstBreak (xs ++ Block.thematicBreak :: ys) = some (xs, ys) := by
  intro xs
  induction xs with
  | nil => intro _ ys; rfl
  | cons x xs ih =>
    intro h ys
    rw [List.cons_append,
      splitAtFirstBreak_cons_nonbreak x _ (h x (List.mem_cons_self x xs)),
      ih (fun b hb => h b (List.mem_cons_of_mem x hb)) ys]

theorem entryBlocks_cons_ne_nil (e : PEntry) (rest : List PEntry) :
    entryBlocks (e :: rest) ≠ [] := by
  cases e with
  | ing a n =>
    rw [entryBlocks]
    cases hch : chunkEntries (PEntry.ing a n :: rest) with
    | nil =>
      exfalso
      rw [chunkEntries] at hch
      cases hr : chunkEntries rest with
      | nil => rw [hr] at hch; simp at hch
      | cons c cs =>
        cases c with
        | inl run => rw [hr] at hch; simp at hch
        | inr g => rw [hr] at hch; simp at hch
    | cons c cs =>
      rw [List.flatMap_cons]
      cases c with
      | inl run => simp
      | inr g => simp [groupBlocks]
  | group n ings =>
    rw [entryBlocks,
      show chunkEntries (PEntry.group n ings :: rest) =
        .inr (n, ings) :: chunkEntries rest from rfl,
      List.flatMap_cons]
    simp [groupBlocks]

theorem processIngredientsAux_paras :
    ∀ ns : List Block, (∀ p ∈ ns, ∃ cs, p = Block.para cs) →
      ∀ acc, processIngredientsAux ns acc none = acc := by
  intro ns
  induction ns with
  | nil => intro _ acc; rfl
  | cons b rest ih =>
    intro h acc
    obtain ⟨cs, rfl⟩ := h b (List.mem_cons_self b rest)
    rw [show processIngredientsAux (Block.para cs :: rest) acc none =
      processIngredientsAux rest acc none from rfl]
    exact ih (fun p hp => h p (List.mem_cons_of_mem _ hp)) acc

theorem metaRender_proj (m : List Block) :
    (processMetadataGo (mdRenderBlocks (processMetadataGo m))).flatMap titleTextOf
        = (processMetadataGo m).flatMap titleTextOf ∧
    (processMetadataGo (mdRenderBlocks (processMetadataGo m))).flatMap tagsTextOf
        = (processMetadataGo m).flatMap tagsTextOf ∧
    (processMetadataGo (mdRenderBlocks (processMetadataGo m))).flatMap yieldsTextOf
        = (processMetadataGo m).flatMap yieldsTextOf ∧
    (processMetadataGo (mdRenderBlocks (processMetadataGo m))).flatMap ingPairsOf = [] ∧
    (processMetadataGo (mdRenderBlocks (processMetadataGo m))).flatMap groupPairsOf = [] ∧
    (processMetadataGo m).flatMap ingPairsOf = [] ∧
    (processMetadataGo m).flatMap groupPairsOf = [] := by
  have hM : ∀ c ∈ processMetadataGo m, isMetaChild c = true := by
    intro c hc
    exact processMetadataGo_meta m [] (fun c hc => absurd hc (List.not_mem_nil c)) c hc
  obtain ⟨t1, t2, t3, t4, t5⟩ := metaStep_fold (mdRenderBlocks (processMetadataGo m)) []
  have hassoc : ∀ {α : Type} (F : Block → List α) (G : PChild → List α),
      (∀ c ∈ processMetadataGo m, (mdChildBlocks c).flatMap F = G c) →
      (mdRenderBlocks (processMetadataGo m)).flatMap F = (processMetadataGo m).flatMap G := by
    intro α F G hFG
    rw [mdRenderBlocks, flatMap_assoc']
    exact flatMap_congr_mem _ _ _ hFG
  refine ⟨?_, ?_, ?_, ?_, ?_, ?_, ?_⟩
  · rw [processMetadataGo, t1, List.flatMap_nil, List.nil_append]
    exact hassoc blockTitleProj titleTextOf fun c hc => (mdChild_proj c (hM c hc)).1
  · rw [processMetadataGo, t2, List.flatMap_nil, List.nil_append]
    exact hassoc blockTagsProj tagsTextOf fun c hc => (mdChild_proj c (hM c hc)).2.1
  · rw [processMetadataGo, t3, List.flatMap_nil, List.nil_append]
    exact hassoc blockYieldsProj yieldsTextOf fun c hc => (mdChild_proj c (hM c hc)).2.2.1
  · rw [processMetadataGo, t4]; rfl
  · rw [processMetadataGo, t5]; rfl
  · exact flatMap_nil_of _ _ fun c hc => (mdChild_proj c (hM c hc)).2.2.2.1
  · exact flatMap_nil_of _ _ fun c hc => (mdChild_proj c (hM c hc)).2.2.2.2

theorem jsonExport_eq_of_proj (cs cs' : List PChild)
    (h1 : cs'.flatMap titleTextOf = cs.flatMap titleTextOf)
    (h2 : cs'.flatMap tagsTextOf = cs.flatMap tagsTextOf)
    (h3 : cs'.flatMap yieldsTextOf = cs.flatMap yieldsTextOf)
    (h4 : cs'.flatMap ingPairsOf = cs.flatMap ingPairsOf)
    (h5 : cs'.flatMap groupPairsOf = cs.flatMap groupPairsOf) :
    (jsonExport cs').title = (jsonExport cs).title ∧
    (jsonExport cs').tags = (jsonExport cs).tags ∧
    (jsonExport cs').yields = (jsonExport cs).yields ∧
    (jsonExport cs').ingredients = (jsonExport cs).ingredients ∧
    (jsonExport cs').groups = (jsonExport cs).groups := by
  obtain ⟨f1, f2, f3, f4, f5⟩ := jsonStep_fold cs ⟨"", "", [], [], [], [], ""⟩
  obtain ⟨g1, g2, g3, g4, g5⟩ := jsonStep_fold cs' ⟨"", "", [], [], [], [], ""⟩
  rw [jsonExport, jsonExport]
  exact ⟨by rw [g1, f1, h1], by rw [g2, f2, h2], by rw [g3, f3, h3],
    by rw [g4, f4, h4], by rw [g5, f5, h5]⟩

theorem flatMap_ite_singleton {α : Type} (P : Prop) [Decidable P] (c : PChild)
    (F : PChild → List α) (hc : F c = []) :
    (if P then ([] : List PChild) else [c]).flatMap F = [] := by
  split
  · rfl
  · simp [hc]

/-- Claim C4: round trip — structured (JSON) export, then markdown source
reconstruction, then re-parsing the reconstruction, then structured export
again returns the same Title, the same Tags in order, the same Yields, and
the same ingredient shape (bare `(amount, name)` pairs and `(group name,
members)` groups, in order) as the first export, for every parsed document. -/
theorem roundtrip_export (bs : List Block) :
    (jsonExport (transformP (mdRenderBlocks (transformP bs)))).title
        = (jsonExport (transformP bs)).title ∧
    (jsonExport (transformP (mdRenderBlocks (transformP bs)))).tags
        = (jsonExport (transformP bs)).tags ∧
    (jsonExport (transformP (mdRenderBlocks (transformP bs)))).yields
        = (jsonExport (transformP bs)).yields ∧
    (jsonExport (transformP (mdRenderBlocks (transformP bs)))).ingredients
        = (jsonExport (transformP bs)).ingredients ∧
    (jsonExport (transformP (mdRenderBlocks (transformP bs)))).groups
        = (jsonExport (transformP bs)).groups := by
  rcases hsec : sections bs with ⟨m, ing, ins⟩
  have htrans : transformP bs =
      processMetadataGo m ++
        (if ing.isEmpty = true then []
         else [PChild.ingredients (processIngredientsP ing)]) ++
        (if ins.isEmpty = true then [] else [PChild.instructions ins]) := by
    unfold transformP
    rw [hsec]
  have hM : ∀ c ∈ processMetadataGo m, isMetaChild c = true := fun c hc =>
    processMetadataGo_meta m [] (fun c hc => absurd hc (List.not_mem_nil c)) c hc
  have hMnb : ∀ b ∈ mdRenderBlocks (processMetadataGo m), isBreak b = false := by
    intro b hb
    rw [mdRenderBlocks] at hb
    obtain ⟨c, hcM, hbc⟩ := List.mem_flatMap.1 hb
    exact mdChild_noBreak c (hM c hcM) b hbc
  obtain ⟨p1, p2, p3, p4, p5, p6, p7⟩ := metaRender_proj m
  rw [htrans]
  by_cases hni : ing.isEmpty = true
  · by_cases hnj : ins.isEmpty = true
    · rw [if_pos hni, if_pos hnj, List.append_nil, List.append_nil]
      have hs' : sections (mdRenderBlocks (processMetadataGo m)) =
          (mdRenderBlocks (processMetadataGo m), [], []) := by
        have h1 : splitAtFirstBreak (mdRenderBlocks (processMetadataGo m)) = none :=
          (splitAtFirstBreak_none _).2 hMnb
        simp only [sections, h1]
      refine jsonExport_eq_of_proj _ _ ?_ ?_ ?_ ?_ ?_ <;>
        (unfold transformP; rw [hs']; simp [p1, p2, p3, p4, p5, p6, p7])
    · rw [if_pos hni, if_neg hnj, List.append_nil]
      have hT : ∀ p ∈ trimmedParas ins, ∃ cs, p = Block.para cs := fun p hp =>
        (trimmedParas_shape ins p hp).elim fun t ht => ⟨_, ht⟩
      have hTnb : ∀ b ∈ trimmedParas ins, isBreak b = false := by
        intro b hb
        obtain ⟨t, rfl⟩ := trimmedParas_shape ins b hb
        rfl
      have hmd : mdRenderBlocks (processMetadataGo m ++ [PChild.instructions ins]) =
          mdRenderBlocks (processMetadataGo m) ++
            Block.thematicBreak :: trimmedParas ins := by
        simp [mdRenderBlocks, mdChildBlocks]
      have hs' : sections (mdRenderBlocks (processMetadataGo m ++ [PChild.instructions ins])) =
          (mdRenderBlocks (processMetadataGo m), trimmedParas ins, []) := by
        have h1 := splitAtFirstBreak_append_break _ hMnb (trimmedParas ins)
        have h2 : splitAtFirstBreak (trimmedParas ins) = none :=
          (splitAtFirstBreak_none _).2 hTnb
        rw [hmd]
        simp only [sections, h1, h2]
      have hPT : processIngredientsP (trimmedParas ins) = [] := by
        rw [processIngredientsP]
        exact processIngredientsAux_paras _ hT []
      refine jsonExport_eq_of_proj _ _ ?_ ?_ ?_ ?_ ?_ <;>
        (unfold transformP; rw [hs'];
          simp [hPT, p1, p2, p3, p4, p5, p6, p7, flatMap_ite_singleton,
            titleTextOf, tagsTextOf, yieldsTextOf, ingPairsOf, groupPairsOf])
  · by_cases hes : processIngredientsP ing = []
    · by_cases hnj : ins.isEmpty = true
      · rw [if_neg hni, if_pos hnj, List.append_nil, hes]
        have hmd : mdRenderBlocks (processMetadataGo m ++ [PChild.ingredients []]) =
            mdRenderBlocks (processMetadataGo m) ++ [Block.thematicBreak] := by
          simp [mdRenderBlocks, mdChildBlocks, entryBlocks, chunkEntries]
        have hs' : sections (mdRenderBlocks (processMetadataGo m ++ [PChild.ingredients []])) =
            (mdRenderBlocks (processMetadataGo m), [], []) := by
          have h1 := splitAtFirstBreak_append_break _ hMnb ([] : List Block)
          have h2 : splitAtFirstBreak ([] : List Block) = none := rfl
          rw [hmd]
          simp only [sections, h1, h2]
        refine jsonExport_eq_of_proj _ _ ?_ ?_ ?_ ?_ ?_ <;>
          (unfold transformP; rw [hs'];
            simp [p1, p2, p3, p4, p5, p6, p7,
              titleTextOf, tagsTextOf, yieldsTextOf, ingPairsOf, groupPairsOf])
      · rw [if_neg hni, if_neg hnj, hes]
        have hT : ∀ p ∈ trimmedParas ins, ∃ cs, p = Block.para cs := fun p hp =>
          (trimmedParas_shape ins p hp).elim fun t ht => ⟨_, ht⟩
        have hTnb : ∀ b ∈ trimmedParas ins, isBreak b = false := by
          intro b hb
          obtain ⟨t, rfl⟩ := trimmedParas_shape ins b hb
          rfl
        have hmd : mdRenderBlocks
              (processMetadataGo m ++ [PChild.ingredients []] ++ [PChild.instructions ins]) =
            mdRenderBlocks (processMetadataGo m) ++
              Block.thematicBreak :: Block.thematicBreak :: trimmedParas ins := by
          simp [mdRenderBlocks, mdChildBlocks, entryBlocks, chunkEntries]
        have hs' : sections (mdRenderBlocks
              (processMetadataGo m ++ [PChild.ingredients []] ++ [PChild.instructions ins])) =
            (mdRenderBlocks (processMetadataGo m), [], trimmedParas ins) := by
          have h1 := splitAtFirstBreak_append_break _ hMnb
            (Block.thematicBreak :: trimmedParas ins)
          have h2 : splitAtFirstBreak (Block.thematicBreak :: trimmedParas ins) =
              some ([], trimmedParas ins) := rfl
          rw [hmd]
          simp only [sections, h1, h2]
        refine jsonExport_eq_of_proj _ _ ?_ ?_ ?_ ?_ ?_ <;>
          (unfold transformP; rw [hs'];
            simp [p1, p2, p3, p4, p5, p6, p7, flatMap_ite_singleton,
              titleTextOf, tagsTextOf, yieldsTextOf, ingPairsOf, groupPairsOf])
    · obtain ⟨e, es', hcons⟩ := List.exists_cons_of_ne_nil hes
      have hcanon : processIngredientsP ing =
          (barePairs ing).map mkIng ++ (sliceGroups ing).map mkGrp := by
        rw [processIngredientsP, processIngredientsAux_none ing [], List.nil_append]
      have hrt : processIngredientsP (entryBlocks (processIngredientsP ing)) =
          processIngredientsP ing := by
        rw [hcanon]
        exact entryBlocks_roundtrip _ _ (barePairs_trimFixed ing) (sliceGroups_trimFixed ing)
      have hEne : entryBlocks (processIngredientsP ing) ≠ [] := by
        rw [hcons]
        exact entryBlocks_cons_ne_nil e es'
      have hEempty : (entryBlocks (processIngredientsP ing)).isEmpty = false := by
        cases hE : (entryBlocks (processIngredientsP ing)).isEmpty
        · rfl
        · exact absurd (List.isEmpty_iff.1 hE) hEne
      have hEnb := entryBlocks_noBreak (processIngredientsP ing)
      by_cases hnj : ins.isEmpty = true
      · rw [if_neg hni, if_pos hnj, List.append_nil]
        have hmd : mdRenderBlocks
              (processMetadataGo m ++ [PChild.ingredients (processIngredientsP ing)]) =
            mdRenderBlocks (processMetadataGo m) ++
              Block.thematicBreak :: entryBlocks (processIngredientsP ing) := by
          simp [mdRenderBlocks, mdChildBlocks]
        have hs' : sections (mdRenderBlocks
              (processMetadataGo m ++ [PChild.ingredients (processIngredientsP ing)])) =
            (mdRenderBlocks (processMetadataGo m),
              entryBlocks (processIngredientsP ing), []) := by
          have h1 := splitAtFirstBreak_append_break _ hMnb
            (entryBlocks (processIngredientsP ing))
          have h2 : splitAtFirstBreak (entryBlocks (processIngredientsP ing)) = none :=
            (splitAtFirstBreak_none _).2 hEnb
          rw [hmd]
          simp only [sections, h1, h2]
        refine jsonExport_eq_of_proj _ _ ?_ ?_ ?_ ?_ ?_ <;>
          (unfold transformP; rw [hs'];
            simp [hEempty, hrt, p1, p2, p3, p4, p5, p6, p7,
              titleTextOf, tagsTextOf, yieldsTextOf, ingPairsOf, groupPairsOf])
      · rw [if_neg hni, if_neg hnj]
        have hT : ∀ p ∈ trimmedParas ins, ∃ cs, p = Block.para cs := fun p hp =>
          (trimmedParas_shape ins p hp).elim fun t ht => ⟨_, ht⟩
        have hTnb : ∀ b ∈ trimmedParas ins, isBreak b = false := by
          intro b hb
          obtain ⟨t, rfl⟩ := trimmedParas_shape ins b hb
          rfl
        have hmd : mdRenderBlocks
              (processMetadataGo m ++ [PChild.ingredients (processIngredientsP ing)] ++
                [PChild.instructions ins]) =
            mdRenderBlocks (processMetadataGo m) ++
              Block.thematicBreak ::
                (entryBlocks (processIngredientsP ing) ++
                  Block.thematicBreak :: trimmedParas ins) := by
          simp [mdRenderBlocks, mdChildBlocks]
        have hs' : sections (mdRenderBlocks
              (processMetadataGo m ++ [PChild.ingredients (processIngredientsP ing)] ++
                [PChild.instructions ins])) =
            (mdRenderBlocks (processMetadataGo m),
              entryBlocks (processIngredientsP ing), trimmedParas ins) := by
          have h1 := splitAtFirstBreak_append_break _ hMnb
            (entryBlocks (processIngredientsP ing) ++ Block.thematicBreak :: trimmedParas ins)
          have h2 := splitAtFirstBreak_append_break _ hEnb (trimmedParas ins)
          rw [hmd]
          simp only [sections, h1, h2]
        refine jsonExport_eq_of_proj _ _ ?_ ?_ ?_ ?_ ?_ <;>
          (unfold transformP; rw [hs'];
            simp [hEempty, hrt, p1, p2, p3, p4, p5, p6, p7, flatMap_ite_singleton,
              titleTextOf, tagsTextOf, yieldsTextOf, ingPairsOf, groupPairsOf])

end RecipeMD
